import Mathlib

/-!
# Path-Planning: heap priority queue and Lifelong-Planning A* data model

A shallow embedding of `planning/lib/lifelong_planning.hpp` and of the heap
interface exercised by `planning/UnitTests/test_priority_queue.cpp`.

Conventions.

* C++ `int` is a 32-bit two's-complement integer.  A value of type `int` is a
  Lean `Int`; every arithmetic operation of the source is followed by
  `wrapInt`, the reduction into `[INT_MIN, INT_MAX]`.
* C++ `unsigned` and `size_t` values are natural numbers.
* A C++ container is a `List`; an iterator is a position (a `Nat`).
* Operations that can throw, or that touch memory outside a container,
  return `Except Error`.
* What the source text does not determine is a parameter: `roundHypot`, the
  double-precision computation of the `"euclidean"` heuristic, and `deadGoal`,
  the value read through the reference that the queue comparator of
  `LpAstarCore` keeps to a constructor parameter.
-/

set_option autoImplicit false

namespace search

/-! ## Definitions -/

/-- Failure kinds of the embedded operations. `OutOfRange` marks an access
outside a container, which the source leaves undefined. -/
inductive Error where
  | EmptyQueue
  | UnknownHeuristic
  | OutOfRange
  deriving DecidableEq, Repr

/-- Largest value of the C++ type `int`. -/
def INT_MAX : Int := 2147483647

/-- Smallest value of the C++ type `int`. -/
def INT_MIN : Int := -2147483648

/-- Reduction of a mathematical integer to the 32-bit `int` holding it
(two's complement wrap-around). -/
def wrapInt (a : Int) : Int := (a + 2147483648) % 4294967296 - 2147483648

/-- The integer is representable as a C++ `int`. -/
def InInt (a : Int) : Prop := INT_MIN ≤ a ∧ a ≤ INT_MAX

instance (a : Int) : Decidable (InInt a) := by
  unfold InInt
  exact inferInstance

/-- The `int` sum `a + b`. -/
def iadd (a b : Int) : Int := wrapInt (a + b)

/-- The `int` difference `a - b`. -/
def isub (a b : Int) : Int := wrapInt (a - b)

/-- The `int` overload of `std::abs`. -/
def iabs (a : Int) : Int := wrapInt (if a < 0 then -a else a)

/-- Conversion of an `int` to `size_t` (64 bit), as performed when an `int`
is used as a `std::vector` index. -/
def toSizeT (a : Int) : Nat := (a % 18446744073709551616).toNat

namespace lp

/-- The function `infinity()`: `std::numeric_limits<int>::max()`. -/
def infinity : Int := INT_MAX

/-- The function `cost()`. -/
def cost : Int := 1

/-- The struct `Coordinate`. -/
structure Coordinate where
  x : Int
  y : Int
  deriving DecidableEq, Repr

/-- Both fields hold `int` values. -/
def Coordinate.InRange (c : Coordinate) : Prop := InInt c.x ∧ InInt c.y

instance (c : Coordinate) : Decidable c.InRange := by
  unfold Coordinate.InRange
  exact inferInstance

/-- The table `Directions` built inside `Coordinate::neighbours`: direction
code to displacement. -/
def Directions (n : Char) : Option (Coordinate → Coordinate) :=
  if n = '1' then some fun c => { x := isub c.x 1, y := isub c.y 1 }
  else if n = '2' then some fun c => { x := isub c.x 0, y := isub c.y 1 }
  else if n = '3' then some fun c => { x := iadd c.x 1, y := isub c.y 1 }
  else if n = '4' then some fun c => { x := isub c.x 1, y := isub c.y 0 }
  else if n = '5' then some fun c => { x := iadd c.x 1, y := iadd c.y 0 }
  else if n = '6' then some fun c => { x := isub c.x 1, y := iadd c.y 1 }
  else if n = '7' then some fun c => { x := isub c.x 0, y := iadd c.y 1 }
  else if n = '8' then some fun c => { x := iadd c.x 1, y := iadd c.y 1 }
  else none

/-- The method `Coordinate::neighbours`: the loop `for (n = '1'; n != '9'; ++n)`
appends `directions.at(n)(*this)`. -/
def Coordinate.neighbours (c : Coordinate) : List Coordinate :=
  ['1', '2', '3', '4', '5', '6', '7', '8'].filterMap fun n =>
    (Directions n).map fun f => f c

/-- The struct `LpState`. -/
structure LpState where
  coordinate : Coordinate
  g : Int
  r : Int
  deriving DecidableEq, Repr

/-- A value-initialised `LpState`, as produced by `vector<LpState>(width)`:
the struct has no constructor and no member initialisers, so every field is
zero. -/
instance : Inhabited LpState := ⟨{ coordinate := { x := 0, y := 0 }, g := 0, r := 0 }⟩

/-- The registry entry `"manhattan"`. -/
def manhattan (curr goal : Coordinate) : Int :=
  max (iabs (isub goal.x curr.x)) (iabs (isub goal.y curr.y))

/-- The registry entry `"euclidean"`:
`static_cast<int>(round(hypot(abs(goal.x - curr.x), abs(goal.y - curr.y))))`.
`hypot` and `round` are double-precision functions of the C library and the
cast of a `double` is outside integer arithmetic, so the function that sends
two `int` arguments `a`, `b` to `static_cast<int>(round(hypot(a, b)))` is the
parameter `roundHypot`. -/
def euclidean (roundHypot : Int → Int → Int) (curr goal : Coordinate) : Int :=
  roundHypot (iabs (isub goal.x curr.x)) (iabs (isub goal.y curr.y))

/-- The registry `HeuristcFuncs` with its member `at`: name to heuristic
function, `none` where `unordered_map::at` throws. -/
def HeuristcFuncs (roundHypot : Int → Int → Int) (name : String) :
    Option (Coordinate → Coordinate → Int) :=
  if name = "manhattan" then some manhattan
  else if name = "euclidean" then some (euclidean roundHypot)
  else none

/-- The struct `LpAstarCore::Key`. -/
structure Key where
  first : Int
  second : Int
  deriving DecidableEq, Repr

/-- The constructor `Key(LpState s, h, Coordinate g)`. -/
def Key.ofState (s : LpState) (h : Coordinate → Coordinate → Int) (g : Coordinate) : Key :=
  { first := min s.g (iadd s.r (h s.coordinate g)), second := min s.g s.r }

/-- The friend `operator==` of `Key`. -/
def Key.eq (l r : Key) : Bool :=
  decide (l.first = r.first) && decide (l.second = r.second)

/-- The friend `operator<` of `Key`. -/
def Key.lt (l r : Key) : Bool :=
  decide (l.first < r.first) || (decide (l.first = r.first) && decide (l.second < r.second))

/-- A sequence of cells in which every cell after the first is an element of
`neighbours()` of the cell before it. -/
def IsMovePath : List Coordinate → Prop
  | [] => True
  | [_] => True
  | a :: b :: rest => b ∈ a.neighbours ∧ IsMovePath (b :: rest)

/-- One unit step from `a` in the direction of `b`. -/
def toward (a b : Int) : Int := if a < b then a + 1 else if b < a then a - 1 else a

/-- The neighbouring cell of `c` that is nearest to `g`. -/
def stepToward (c g : Coordinate) : Coordinate := ⟨toward c.x g.x, toward c.y g.y⟩

/-- The straight walk of `n` moves from `c` towards `g`. -/
def walk : Nat → Coordinate → Coordinate → List Coordinate
  | 0, c, _ => [c]
  | n + 1, c, g => c :: walk n (stepToward c g) g

/-- The class `Matrix`: its member `_data`, a vector of rows of states. -/
structure Matrix where
  _data : List (List LpState)
  deriving DecidableEq, Repr

/-- The element `_data[y][x]` for `size_t` indices, when both are in range. -/
def Matrix.cell (m : Matrix) (x y : Nat) : Option LpState :=
  match m._data[y]? with
  | none => none
  | some row => row[x]?

/-- The member `Matrix::at`: `_data[c.y][c.x]`, the `int` fields converted to
`size_t`. An access outside the vectors is reported as `OutOfRange`. -/
def Matrix.at (m : Matrix) (c : Coordinate) : Except Error LpState :=
  match m.cell (toSizeT c.x) (toSizeT c.y) with
  | none => .error .OutOfRange
  | some s => .ok s

/-- The statement `at(c).coordinate = v` of the constructor body. -/
def Matrix.setCoordinate (m : Matrix) (c v : Coordinate) : Except Error Matrix :=
  match m._data[toSizeT c.y]? with
  | none => .error .OutOfRange
  | some row =>
    match row[toSizeT c.x]? with
    | none => .error .OutOfRange
    | some s =>
      .ok ⟨m._data.set (toSizeT c.y) (row.set (toSizeT c.x) { s with coordinate := v })⟩

/-- The inner loop `for (auto x = 0; x != width; ++x) at({x, y}).coordinate = {x, y}`.
The counter is an `int` compared as `unsigned`, so the body runs once for each
of the first `width` counter values; the first argument counts the runs left. -/
def Matrix.fillRow (y : Int) : Nat → Int → Matrix → Except Error Matrix
  | 0, _, m => .ok m
  | n + 1, x, m =>
    match m.setCoordinate ⟨x, y⟩ ⟨x, y⟩ with
    | .error e => .error e
    | .ok m' => Matrix.fillRow y n (iadd x 1) m'

/-- The outer loop `for (auto y = 0; y != height; ++y)` around the inner one. -/
def Matrix.fillRows (width : Nat) : Nat → Int → Matrix → Except Error Matrix
  | 0, _, m => .ok m
  | n + 1, y, m =>
    match Matrix.fillRow y width 0 m with
    | .error e => .error e
    | .ok m' => Matrix.fillRows width n (iadd y 1) m'

/-- The constructor `Matrix(unsigned height, unsigned width)`: `_data` starts as
`height` rows of `width` value-initialised states, then the loops store each
cell's coordinate. -/
def Matrix.new (height width : Nat) : Except Error Matrix :=
  Matrix.fillRows width height 0 ⟨List.replicate height (List.replicate width default)⟩

/-- Shape and contents of a grid under construction: `h` rows of `w` cells, all
with `g = r = 0`, and the coordinate stored wherever `P` holds. -/
def Matrix.Filled (m : Matrix) (h w : Nat) (P : Nat → Nat → Prop) : Prop :=
  m._data.length = h ∧
    ∀ x y : Nat, x < w → y < h →
      ∃ s, m.cell x y = some s ∧ s.g = 0 ∧ s.r = 0 ∧ (P x y → s.coordinate = ⟨x, y⟩)

end lp

/-- Modelled from the spec: `priority_queue.hpp` is not among the sources. The
comparator contract of the heap, a strict weak ordering: irreflexive,
transitive, and with a transitive incomparability relation. -/
structure StrictWeakOrder {α : Type} (cmp : α → α → Bool) : Prop where
  irrefl : ∀ a, cmp a a = false
  trans : ∀ a b c, cmp a b = true → cmp b c = true → cmp a c = true
  incomp_trans : ∀ a b c, cmp a b = false ∧ cmp b a = false →
    cmp b c = false ∧ cmp c b = false → cmp a c = false ∧ cmp c a = false

/-- Modelled from the spec: the index function `parent(begin, i)` of the absent
`priority_queue.hpp`; positions are offsets into the sequence. It returns
`begin + (dist - 1) / 2` with `dist = i - begin`, and `begin` for `i == begin`. -/
def parent (b i : Nat) : Nat := if i = b then b else b + (i - b - 1) / 2

/-- Modelled from the spec: the index function `left_child(begin, end, i)` of the
absent `priority_queue.hpp`: `begin + 2 * dist + 1` if that is `< end`, else `end`. -/
def left_child (b e i : Nat) : Nat :=
  if b + 2 * (i - b) + 1 < e then b + 2 * (i - b) + 1 else e

/-- Modelled from the spec: the index function `right_child(begin, end, i)` of
the absent `priority_queue.hpp`: as `left_child` with `+ 2`. -/
def right_child (b e i : Nat) : Nat :=
  if b + 2 * (i - b) + 2 < e then b + 2 * (i - b) + 2 else e

/-- Modelled from the spec: the exchange of the elements at two positions made
by the heap operations of the absent `priority_queue.hpp`. -/
def swapAt {α : Type} (xs : List α) (i j : Nat) : List α :=
  match xs[i]?, xs[j]? with
  | some a, some b => (xs.set i b).set j a
  | _, _ => xs

/-- Modelled from the spec: the test `cmp(*a, *b)` on the elements at two
positions, as used by the heap operations of the absent `priority_queue.hpp`. -/
def cmpAt {α : Type} (cmp : α → α → Bool) (xs : List α) (a b : Nat) : Bool :=
  match xs[a]?, xs[b]? with
  | some x, some y => cmp x y
  | _, _ => false

/-- Modelled from the spec: the selection step of `heapify` in the absent
`priority_queue.hpp`: among `i` and its existing children, the position whose
element is most extreme under `cmp`. A child replaces the current choice only
when `cmp(child, choice)` holds, so on ties the position nearer the root is
kept; this is the tie-breaking that the pop orders asserted in `pq_ctors` and
`pq_push` require. -/
def extreme {α : Type} (cmp : α → α → Bool) (xs : List α) (i : Nat) : Nat :=
  let l := left_child 0 xs.length i
  let r := right_child 0 xs.length i
  let m := if l ≠ xs.length ∧ cmpAt cmp xs l i = true then l else i
  if r ≠ xs.length ∧ cmpAt cmp xs r m = true then r else m

/-- Modelled from the spec: the recursion of `heapify` in the absent
`priority_queue.hpp`: if a child is more extreme than `i`, swap and recurse
into that child's position, otherwise stop. The first argument bounds the
number of recursive calls. -/
def heapifyAux {α : Type} (cmp : α → α → Bool) : Nat → List α → Nat → List α
  | 0, xs, _ => xs
  | fuel + 1, xs, i =>
    if extreme cmp xs i ≠ i then
      heapifyAux cmp fuel (swapAt xs i (extreme cmp xs i)) (extreme cmp xs i)
    else xs

/-- Modelled from the spec: `heapify(begin, end, i, cmp)` of the absent
`priority_queue.hpp`, over the whole sequence (`begin` is position `0`, `end`
is the length). Every recursive call moves to a child position, so the length
bounds the number of calls. -/
def heapify {α : Type} (cmp : α → α → Bool) (xs : List α) (i : Nat) : List α :=
  heapifyAux cmp xs.length xs i

/-- Modelled from the spec: the loop of `build_heap` in the absent
`priority_queue.hpp`: `heapify` at the positions `k - 1, k - 2, ..., 0`. -/
def build_heap_from {α : Type} (cmp : α → α → Bool) : Nat → List α → List α
  | 0, xs => xs
  | k + 1, xs => build_heap_from cmp k (heapify cmp xs k)

/-- Modelled from the spec: `build_heap(begin, end, cmp)` of the absent
`priority_queue.hpp`: `heapify` at every internal-node position, from the last
internal node (position `length / 2 - 1`) down to the first position. -/
def build_heap {α : Type} (cmp : α → α → Bool) (xs : List α) : List α :=
  build_heap_from cmp (xs.length / 2) xs

/-- Modelled from the spec: the sift-up loop of the push primitive in the absent
`priority_queue.hpp`: while the element at `i` is not at the root and is more
extreme than its parent, swap it with the parent. The first argument bounds
the number of swaps. -/
def siftUpAux {α : Type} (cmp : α → α → Bool) : Nat → List α → Nat → List α
  | 0, xs, _ => xs
  | fuel + 1, xs, i =>
    if i ≠ 0 ∧ cmpAt cmp xs i (parent 0 i) = true then
      siftUpAux cmp fuel (swapAt xs i (parent 0 i)) (parent 0 i)
    else xs

/-- Modelled from the spec: the sift-up of the element at position `i`; each swap
moves to a smaller position, so `i` bounds the number of swaps. -/
def siftUp {α : Type} (cmp : α → α → Bool) (xs : List α) (i : Nat) : List α :=
  siftUpAux cmp i xs i

/-- Modelled from the spec: the class `PriorityQueue` of the absent
`priority_queue.hpp`: a backing sequence and a comparator. -/
structure PriorityQueue (α : Type) where
  _seq : List α
  _compare : α → α → Bool

/-- Modelled from the spec: the `PriorityQueue` constructor taking only a
comparator; the queue is empty. -/
def PriorityQueue.new {α : Type} (cmp : α → α → Bool) : PriorityQueue α :=
  { _seq := [], _compare := cmp }

/-- Modelled from the spec: the `PriorityQueue` constructor taking a sequence and
a comparator: the elements are copied and `build_heap` is called. -/
def PriorityQueue.ofSeq {α : Type} (xs : List α) (cmp : α → α → Bool) : PriorityQueue α :=
  { _seq := build_heap cmp xs, _compare := cmp }

/-- Modelled from the spec: `PriorityQueue::size`. -/
def PriorityQueue.size {α : Type} (q : PriorityQueue α) : Nat := q._seq.length

/-- Modelled from the spec: `PriorityQueue::empty`. -/
def PriorityQueue.empty {α : Type} (q : PriorityQueue α) : Bool := q._seq.isEmpty

/-- Modelled from the spec: `PriorityQueue::top`: the first element of the
sequence; fails with `EmptyQueue` on an empty queue. -/
def PriorityQueue.top {α : Type} (q : PriorityQueue α) : Except Error α :=
  match q._seq.head? with
  | none => .error .EmptyQueue
  | some a => .ok a

/-- Modelled from the spec: `PriorityQueue::pop`: fails with `EmptyQueue` on an
empty queue; otherwise swaps the first and last element, shrinks the sequence
by one and calls `heapify` at the root. -/
def PriorityQueue.pop {α : Type} (q : PriorityQueue α) : Except Error (PriorityQueue α) :=
  if q._seq.length = 0 then .error .EmptyQueue
  else
    .ok { q with
      _seq := heapify q._compare (swapAt q._seq 0 (q._seq.length - 1)).dropLast 0 }

/-- Modelled from the spec: `PriorityQueue::push`: the element is appended at
the end of the sequence and sifted up. -/
def PriorityQueue.push {α : Type} (q : PriorityQueue α) (a : α) : PriorityQueue α :=
  { q with _seq := siftUp q._compare (q._seq ++ [a]) q._seq.length }

/-- The values seen by the loop `while (!q.empty()) { out.push_back(q.top()); q.pop(); }`,
the first argument bounding the number of rounds. -/
def PriorityQueue.drainAux {α : Type} : Nat → PriorityQueue α → List α
  | 0, _ => []
  | fuel + 1, q =>
    if q.empty then []
    else
      match q.top, q.pop with
      | .ok t, .ok q' => t :: PriorityQueue.drainAux fuel q'
      | _, _ => []

/-- The sequence obtained by taking `top()` and `pop()` until the queue is empty;
every round removes one element, so `size()` rounds suffice. -/
def PriorityQueue.drain {α : Type} (q : PriorityQueue α) : List α :=
  PriorityQueue.drainAux q.size q

/-- No existing child of position `i` is more extreme than `i`. -/
def NoChildBetter {α : Type} (cmp : α → α → Bool) (xs : List α) (i : Nat) : Prop :=
  ∀ c a b, (c = 2 * i + 1 ∨ c = 2 * i + 2) → xs[c]? = some a → xs[i]? = some b → cmp a b = false

/-- The heap property at every position from `k` on. -/
def HeapFrom {α : Type} (cmp : α → α → Bool) (xs : List α) (k : Nat) : Prop :=
  ∀ i, k ≤ i → NoChildBetter cmp xs i

/-- The heap property: no child is more extreme than its parent. -/
def IsHeap {α : Type} (cmp : α → α → Bool) (xs : List α) : Prop :=
  ∀ i, NoChildBetter cmp xs i

/-- The state of a sift-down from `k` that has reached `cur`: the heap property
holds from `k` on except at `cur`, and the children of `cur` are not more
extreme than the parent of `cur`. -/
def SiftDownInv {α : Type} (cmp : α → α → Bool) (xs : List α) (k cur : Nat) : Prop :=
  (∀ i, k ≤ i → i ≠ cur → NoChildBetter cmp xs i) ∧
    ∀ p c a b, k ≤ p → (cur = 2 * p + 1 ∨ cur = 2 * p + 2) → (c = 2 * cur + 1 ∨ c = 2 * cur + 2) →
      xs[c]? = some a → xs[p]? = some b → cmp a b = false

/-- The state of a sift-up that has reached `cur`: every child is no more extreme
than its parent, except possibly `cur` itself, and the children of `cur` are
not more extreme than the parent of `cur`. -/
def SiftUpInv {α : Type} (cmp : α → α → Bool) (xs : List α) (cur : Nat) : Prop :=
  (∀ i c a b, (c = 2 * i + 1 ∨ c = 2 * i + 2) → c ≠ cur →
      xs[c]? = some a → xs[i]? = some b → cmp a b = false) ∧
    ∀ p c a b, (cur = 2 * p + 1 ∨ cur = 2 * p + 2) → (c = 2 * cur + 1 ∨ c = 2 * cur + 2) →
      xs[c]? = some a → xs[p]? = some b → cmp a b = false

/-- The comparator `std::less<int>` of the unit tests. -/
def less (a b : Int) : Bool := decide (a < b)

/-- The comparator `std::greater<int>` of the unit tests. -/
def greater (a b : Int) : Bool := decide (a > b)

namespace lp

/-- The body of the lambda that the `LpAstarCore` constructor gives to the queue:
`Key{lft, h, goal} < Key{rht, h, goal}`, for the heuristic and the goal that
the closure reads. -/
def keyLess (h : Coordinate → Coordinate → Int) (goal : Coordinate) (lft rht : LpState) : Bool :=
  Key.lt (Key.ofState lft h goal) (Key.ofState rht h goal)

/-- The struct `LpAstarCore`. -/
structure LpAstarCore where
  heuristics : String → Option (Coordinate → Coordinate → Int)
  matrix : Matrix
  goal : Coordinate
  h : Coordinate → Coordinate → Int
  q : PriorityQueue LpState

/-- The constructor `LpAstarCore(height, width, goal, heuristic)`. The members
are initialised in declaration order: `heuristics`, `matrix{height, width}`,
`goal`, `h{heuristics.at(heuristic)}` (which throws for an unknown name), and
`q` with the lambda `[&](lft, rht) { return Key{lft, h, goal} < Key{rht, h, goal}; }`.
The lambda captures by reference. In a member initialiser `goal` names the
constructor parameter, which hides the member, so the closure keeps a
reference to a parameter that no longer exists once the constructor has
returned; `h` is the member. `deadGoal` is the value that this reference yields
when the comparator runs. -/
def LpAstarCore.new (roundHypot : Int → Int → Int) (deadGoal : Coordinate)
    (height width : Nat) (goal : Coordinate) (heuristic : String) :
    Except Error LpAstarCore :=
  match Matrix.new height width with
  | .error e => .error e
  | .ok matrix =>
    match HeuristcFuncs roundHypot heuristic with
    | none => .error .UnknownHeuristic
    | some h =>
      .ok { heuristics := HeuristcFuncs roundHypot, matrix := matrix, goal := goal, h := h,
            q := PriorityQueue.new (keyLess h deadGoal) }

end lp

/-- The queues reachable from the two constructors by `push` and `pop`, all with
the comparator `cmp`. -/
inductive PriorityQueue.Built {α : Type} (cmp : α → α → Bool) : PriorityQueue α → Prop where
  | new : PriorityQueue.Built cmp (PriorityQueue.new cmp)
  | ofSeq (xs : List α) : PriorityQueue.Built cmp (PriorityQueue.ofSeq xs cmp)
  | push (q : PriorityQueue α) (a : α) :
      PriorityQueue.Built cmp q → PriorityQueue.Built cmp (q.push a)
  | pop (q q' : PriorityQueue α) :
      PriorityQueue.Built cmp q → q.pop = .ok q' → PriorityQueue.Built cmp q'

/-- Modelled from the spec: the test helper `Node`, whose header is not among the
sources: a path label of direction codes (a `std::string`, here the list of
its characters), a fixed start and a fixed goal. -/
structure Node where
  path : List Char
  start : lp.Coordinate
  goal : lp.Coordinate
  deriving DecidableEq, Repr

/-- Modelled from the spec: `Node::coordinate`, the coordinate derived by walking
the direction codes of the path from the start. The codes are those of the
table in `Coordinate::neighbours`, the layout drawn in `pq_ctors`. -/
def Node.coordinate (n : Node) : lp.Coordinate :=
  n.path.foldl (fun c code => match lp.Directions code with
    | some f => f c
    | none => c) n.start

/-- The member `F::cost` of the unit tests: the length of the path. -/
def F.cost (node : Node) : Nat := node.path.length

/-- The member `F::manhattan` of the unit tests: `max(dy, dx)` of the absolute
coordinate differences, returned as `size_t`. -/
def F.manhattan (node : Node) : Nat :=
  toSizeT (max (iabs (isub node.goal.y node.coordinate.y))
    (iabs (isub node.goal.x node.coordinate.x)))

/-- The call operator of `F` in the unit tests: `cost(node) + manhattan(node)` in
`size_t` arithmetic. -/
def F (node : Node) : Nat := (F.cost node + F.manhattan node) % 18446744073709551616

/-- The comparator `Less` of the unit tests: `f(lhs) < f(rhs)`. -/
def Less (lhs rhs : Node) : Bool := decide (F lhs < F rhs)

/-- The vector `nodes` built in `pq_ctors` and `pq_push`: for the codes `'1'` to
`'8'` the node with path `"8"` followed by the code, start `(1, 1)` and goal
`(3, 3)`. -/
def testNodes : List Node :=
  ['1', '2', '3', '4', '5', '6', '7', '8'].map fun i =>
    { path := ['8'] ++ [i], start := ⟨1, 1⟩, goal := ⟨3, 3⟩ }

/-! ## Theorems -/

namespace lp

theorem wrapInt_of_InInt {a : Int} (h : InInt a) : wrapInt a = a := by
  unfold InInt INT_MIN INT_MAX at h
  unfold wrapInt
  omega

theorem wrapInt_InInt (a : Int) : InInt (wrapInt a) := by
  unfold InInt INT_MIN INT_MAX wrapInt
  omega

/-- C3: when `s.r + h(s.coordinate, goal)` is representable as an `int`, the key
built from a state has `first = min(g, r + h)` and `second = min(g, r)`. -/
theorem Key_ofState_fields (s : LpState) (h : Coordinate → Coordinate → Int) (goal : Coordinate)
    (hno : InInt (s.r + h s.coordinate goal)) :
    (Key.ofState s h goal).first = min s.g (s.r + h s.coordinate goal) ∧
      (Key.ofState s h goal).second = min s.g s.r := by
  simp [Key.ofState, iadd, wrapInt_of_InInt hno]

theorem Key_ofState_fields_witness :
    InInt (5 + manhattan ⟨1, 1⟩ ⟨3, 3⟩) ∧
      (Key.ofState ⟨⟨1, 1⟩, 9, 5⟩ manhattan ⟨3, 3⟩).first = min 9 (5 + manhattan ⟨1, 1⟩ ⟨3, 3⟩) ∧
      (Key.ofState ⟨⟨1, 1⟩, 9, 5⟩ manhattan ⟨3, 3⟩).second = min 9 5 :=
  ⟨by decide, Key_ofState_fields ⟨⟨1, 1⟩, 9, 5⟩ manhattan ⟨3, 3⟩ (by decide)⟩

/-- C5: `operator<` on keys is the lexicographic order on `(first, second)`; it is
irreflexive and transitive, and for any two keys exactly one of `a < b`,
`a == b`, `b < a` holds. -/
theorem Key_lt_lexicographic :
    (∀ a b : Key, Key.lt a b = true ↔
        (a.first < b.first ∨ (a.first = b.first ∧ a.second < b.second))) ∧
      (∀ a : Key, Key.lt a a = false) ∧
      (∀ a b c : Key, Key.lt a b = true → Key.lt b c = true → Key.lt a c = true) ∧
      (∀ a b : Key,
        (Key.lt a b = true ∧ Key.eq a b = false ∧ Key.lt b a = false) ∨
        (Key.lt a b = false ∧ Key.eq a b = true ∧ Key.lt b a = false) ∨
        (Key.lt a b = false ∧ Key.eq a b = false ∧ Key.lt b a = true)) ∧
      (∀ a b : Key, Key.eq a b = true ↔ a = b) := by
  refine ⟨?_, ?_, ?_, ?_, ?_⟩
  · intro a b
    simp [Key.lt]
  · intro a
    simp [Key.lt]
  · intro a b c
    simp only [Key.lt, Bool.or_eq_true, Bool.and_eq_true, decide_eq_true_eq]
    omega
  · intro a b
    simp only [Key.lt, Key.eq, Bool.or_eq_true, Bool.and_eq_true, decide_eq_true_eq,
      Bool.or_eq_false_iff, Bool.and_eq_false_iff, decide_eq_false_iff_not]
    omega
  · intro a b
    cases a
    cases b
    simp [Key.eq]

theorem neighbours_unfold (c : Coordinate) :
    c.neighbours =
      [⟨isub c.x 1, isub c.y 1⟩, ⟨isub c.x 0, isub c.y 1⟩, ⟨iadd c.x 1, isub c.y 1⟩,
        ⟨isub c.x 1, isub c.y 0⟩, ⟨iadd c.x 1, iadd c.y 0⟩,
        ⟨isub c.x 1, iadd c.y 1⟩, ⟨isub c.x 0, iadd c.y 1⟩, ⟨iadd c.x 1, iadd c.y 1⟩] := by
  rfl

theorem mem_neighbours_iff (c d : Coordinate) :
    d ∈ c.neighbours ↔
      ((d.x = wrapInt (c.x - 1) ∨ d.x = wrapInt c.x ∨ d.x = wrapInt (c.x + 1)) ∧
        (d.y = wrapInt (c.y - 1) ∨ d.y = wrapInt c.y ∨ d.y = wrapInt (c.y + 1)) ∧
        ¬ (d.x = wrapInt c.x ∧ d.y = wrapInt c.y)) := by
  have h1 : wrapInt (c.x - 1) ≠ wrapInt c.x := by unfold wrapInt; omega
  have h2 : wrapInt (c.x + 1) ≠ wrapInt c.x := by unfold wrapInt; omega
  have h3 : wrapInt (c.y - 1) ≠ wrapInt c.y := by unfold wrapInt; omega
  have h4 : wrapInt (c.y + 1) ≠ wrapInt c.y := by unfold wrapInt; omega
  cases d with
  | mk dx dy =>
    rw [neighbours_unfold]
    simp only [List.mem_cons, Coordinate.mk.injEq, List.mem_singleton, List.not_mem_nil,
      or_false, isub, iadd, sub_zero, add_zero]
    constructor
    · rintro (⟨rfl, rfl⟩ | ⟨rfl, rfl⟩ | ⟨rfl, rfl⟩ | ⟨rfl, rfl⟩ | ⟨rfl, rfl⟩ | ⟨rfl, rfl⟩ |
        ⟨rfl, rfl⟩ | ⟨rfl, rfl⟩) <;> simp [h1, h2, h3, h4]
    · rintro ⟨hx | hx | hx, hy | hy | hy, hn⟩ <;> simp_all

/-- C8: away from the `int` limits, `neighbours()` lists the eight cells around
`c` in the order of the direction codes `1..8`; they are pairwise distinct,
differ from `c`, are exactly the cells at Chebyshev distance one, and the
neighbour relation is symmetric. -/
theorem neighbours_spec (c : Coordinate)
    (hx : INT_MIN < c.x ∧ c.x < INT_MAX) (hy : INT_MIN < c.y ∧ c.y < INT_MAX) :
    c.neighbours =
        [⟨c.x - 1, c.y - 1⟩, ⟨c.x, c.y - 1⟩, ⟨c.x + 1, c.y - 1⟩,
          ⟨c.x - 1, c.y⟩, ⟨c.x + 1, c.y⟩,
          ⟨c.x - 1, c.y + 1⟩, ⟨c.x, c.y + 1⟩, ⟨c.x + 1, c.y + 1⟩] ∧
      c.neighbours.length = 8 ∧
      c.neighbours.Nodup ∧
      c ∉ c.neighbours ∧
      (∀ d : Coordinate, d ∈ c.neighbours ↔ max |d.x - c.x| |d.y - c.y| = 1) ∧
      (∀ d : Coordinate, d.InRange → (d ∈ c.neighbours ↔ c ∈ d.neighbours)) := by
  unfold INT_MIN INT_MAX at hx hy
  have ex1 : wrapInt (c.x - 1) = c.x - 1 := by unfold wrapInt; omega
  have ex2 : wrapInt c.x = c.x := by unfold wrapInt; omega
  have ex3 : wrapInt (c.x + 1) = c.x + 1 := by unfold wrapInt; omega
  have ey1 : wrapInt (c.y - 1) = c.y - 1 := by unfold wrapInt; omega
  have ey2 : wrapInt c.y = c.y := by unfold wrapInt; omega
  have ey3 : wrapInt (c.y + 1) = c.y + 1 := by unfold wrapInt; omega
  have hlist : c.neighbours =
        [⟨c.x - 1, c.y - 1⟩, ⟨c.x, c.y - 1⟩, ⟨c.x + 1, c.y - 1⟩,
          ⟨c.x - 1, c.y⟩, ⟨c.x + 1, c.y⟩,
          ⟨c.x - 1, c.y + 1⟩, ⟨c.x, c.y + 1⟩, ⟨c.x + 1, c.y + 1⟩] := by
    rw [neighbours_unfold]
    simp only [isub, iadd, sub_zero, add_zero, ex1, ex2, ex3, ey1, ey2, ey3]
  refine ⟨hlist, ?_, ?_, ?_, ?_, ?_⟩
  · rw [hlist]
    rfl
  · rw [hlist]
    simp only [List.nodup_cons, List.mem_cons, Coordinate.mk.injEq, List.mem_singleton,
      List.not_mem_nil, List.nodup_nil, or_false, and_true, not_false_eq_true]
    omega
  · rw [mem_neighbours_iff, ex1, ex2, ex3, ey1, ey2, ey3]
    omega
  · intro d
    rw [mem_neighbours_iff, ex1, ex2, ex3, ey1, ey2, ey3, abs_eq_max_neg, abs_eq_max_neg]
    omega
  · intro d hd
    unfold Coordinate.InRange InInt INT_MIN INT_MAX at hd
    have sx1 : c.x = wrapInt (d.x - 1) ↔ d.x = c.x + 1 := by unfold wrapInt; omega
    have sx2 : c.x = wrapInt d.x ↔ d.x = c.x := by unfold wrapInt; omega
    have sx3 : c.x = wrapInt (d.x + 1) ↔ d.x = c.x - 1 := by unfold wrapInt; omega
    have sy1 : c.y = wrapInt (d.y - 1) ↔ d.y = c.y + 1 := by unfold wrapInt; omega
    have sy2 : c.y = wrapInt d.y ↔ d.y = c.y := by unfold wrapInt; omega
    have sy3 : c.y = wrapInt (d.y + 1) ↔ d.y = c.y - 1 := by unfold wrapInt; omega
    rw [mem_neighbours_iff, mem_neighbours_iff, ex1, ex2, ex3, ey1, ey2, ey3,
      sx1, sx2, sx3, sy1, sy2, sy3]
    omega

theorem neighbours_spec_witness :
    (INT_MIN < (1 : Int) ∧ (1 : Int) < INT_MAX) ∧
      (Coordinate.mk 1 1).neighbours =
        [⟨0, 0⟩, ⟨1, 0⟩, ⟨2, 0⟩, ⟨0, 1⟩, ⟨2, 1⟩, ⟨0, 2⟩, ⟨1, 2⟩, ⟨2, 2⟩] :=
  ⟨by decide, (neighbours_spec ⟨1, 1⟩ (by decide) (by decide)).1⟩

theorem iabs_isub_eq (a b : Int) (h1 : InInt (a - b)) (h2 : InInt (b - a)) :
    iabs (isub a b) = |a - b| := by
  unfold InInt INT_MIN INT_MAX at h1 h2
  have e : isub a b = a - b := by unfold isub wrapInt; omega
  rw [e, abs_eq_max_neg]
  unfold iabs wrapInt
  split <;> omega

theorem wrap_shift (a b g s : Int)
    (hb : b = wrapInt (a - 1) ∨ b = wrapInt a ∨ b = wrapInt (a + 1))
    (h : wrapInt (b + s) = wrapInt g) :
    ∃ t : Int, s - 1 ≤ t ∧ t ≤ s + 1 ∧ wrapInt (a + t) = wrapInt g := by
  rcases hb with rfl | rfl | rfl
  · exact ⟨s - 1, by omega, by omega, by unfold wrapInt at *; omega⟩
  · exact ⟨s, by omega, by omega, by unfold wrapInt at *; omega⟩
  · exact ⟨s + 1, by omega, by omega, by unfold wrapInt at *; omega⟩

theorem disp_bound (cx gx s k : Int)
    (hs : -k ≤ s ∧ s ≤ k) (h : wrapInt (cx + s) = wrapInt gx)
    (h1 : InInt (gx - cx)) (h2 : InInt (cx - gx)) : |gx - cx| ≤ k := by
  unfold InInt INT_MIN INT_MAX at *
  unfold wrapInt at h
  rw [abs_eq_max_neg]
  omega

theorem path_displacement :
    ∀ (p : List Coordinate) (c g : Coordinate), p.head? = some c → p.getLast? = some g →
      IsMovePath p →
      ∃ sx sy : Int, (-((p.length : Int) - 1) ≤ sx ∧ sx ≤ (p.length : Int) - 1) ∧
        (-((p.length : Int) - 1) ≤ sy ∧ sy ≤ (p.length : Int) - 1) ∧
        wrapInt (c.x + sx) = wrapInt g.x ∧ wrapInt (c.y + sy) = wrapInt g.y := by
  intro p
  induction p with
  | nil => intro c g h; simp at h
  | cons a rest ih =>
    intro c g hh hl hp
    cases rest with
    | nil =>
      simp only [List.head?_cons, Option.some.injEq, List.getLast?_singleton] at hh hl
      subst hh
      subst hl
      exact ⟨0, 0, by simp, by simp, by simp, by simp⟩
    | cons b rest =>
      simp only [List.head?_cons, Option.some.injEq] at hh
      subst hh
      rw [List.getLast?_cons_cons] at hl
      obtain ⟨hmem, hp'⟩ := hp
      obtain ⟨sx, sy, hsx, hsy, ex, ey⟩ := ih b g (by simp) hl hp'
      rw [mem_neighbours_iff] at hmem
      obtain ⟨hbx, hby, -⟩ := hmem
      obtain ⟨tx, tx1, tx2, etx⟩ := wrap_shift a.x b.x g.x sx hbx ex
      obtain ⟨ty, ty1, ty2, ety⟩ := wrap_shift a.y b.y g.y sy hby ey
      refine ⟨tx, ty, ?_, ?_, etx, ety⟩
      · simp only [List.length_cons, Nat.cast_add, Nat.cast_one] at hsx ⊢
        omega
      · simp only [List.length_cons, Nat.cast_add, Nat.cast_one] at hsy ⊢
        omega

theorem walk_spec :
    ∀ (n : Nat) (c g : Coordinate), c.InRange → g.InRange →
      max |g.x - c.x| |g.y - c.y| = (n : Int) →
      (walk n c g).head? = some c ∧ (walk n c g).getLast? = some g ∧
        IsMovePath (walk n c g) ∧ (walk n c g).length = n + 1 := by
  intro n
  induction n with
  | zero =>
    intro c g _ _ hd
    rw [abs_eq_max_neg, abs_eq_max_neg] at hd
    have hx : g.x = c.x := by omega
    have hy : g.y = c.y := by omega
    have hcg : c = g := by
      cases c
      cases g
      simp_all
    subst hcg
    simp [walk, IsMovePath]
  | succ n ih =>
    intro c g hc hg hd
    rw [abs_eq_max_neg, abs_eq_max_neg] at hd
    unfold Coordinate.InRange InInt INT_MIN INT_MAX at hc hg
    have hstep : (stepToward c g).InRange := by
      unfold Coordinate.InRange InInt INT_MIN INT_MAX stepToward toward
      dsimp only
      refine ⟨?_, ?_⟩ <;> split_ifs <;> omega
    have hdist : max |g.x - (stepToward c g).x| |g.y - (stepToward c g).y| = (n : Int) := by
      rw [abs_eq_max_neg, abs_eq_max_neg]
      unfold stepToward toward
      dsimp only
      push_cast at hd
      split_ifs <;> omega
    obtain ⟨h1, h2, h3, h4⟩ := ih (stepToward c g) g hstep hg hdist
    have hmem : stepToward c g ∈ c.neighbours := by
      rw [mem_neighbours_iff]
      unfold stepToward toward wrapInt
      dsimp only
      push_cast at hd
      split_ifs <;> omega
    cases hw : walk n (stepToward c g) g with
    | nil => rw [hw] at h1; simp at h1
    | cons b rest =>
      rw [hw] at h1 h2 h3 h4
      simp only [List.head?_cons, Option.some.injEq] at h1
      subst h1
      refine ⟨by simp [walk], ?_, ?_, ?_⟩
      · simp only [walk, hw, List.getLast?_cons_cons]
        exact h2
      · simp only [walk, hw]
        exact ⟨hmem, h3⟩
      · simp only [walk, hw, List.length_cons] at h4 ⊢
        omega

/-- C7: when neither the coordinate differences nor their absolute values
overflow, `"manhattan"` returns `max(|dx|, |dy|)`; every move path from `c` to
`goal` has at least that many moves, and some move path has exactly that many. -/
theorem manhattan_is_move_distance (c goal : Coordinate)
    (hc : c.InRange) (hg : goal.InRange)
    (hx : InInt (goal.x - c.x) ∧ InInt (c.x - goal.x))
    (hy : InInt (goal.y - c.y) ∧ InInt (c.y - goal.y)) :
    manhattan c goal = max |goal.x - c.x| |goal.y - c.y| ∧
      (∀ p : List Coordinate, p.head? = some c → p.getLast? = some goal → IsMovePath p →
        manhattan c goal ≤ (p.length : Int) - 1) ∧
      (∃ p : List Coordinate, p.head? = some c ∧ p.getLast? = some goal ∧ IsMovePath p ∧
        (p.length : Int) - 1 = manhattan c goal) := by
  have hm : manhattan c goal = max |goal.x - c.x| |goal.y - c.y| := by
    unfold manhattan
    rw [iabs_isub_eq _ _ hx.1 hx.2, iabs_isub_eq _ _ hy.1 hy.2]
  refine ⟨hm, ?_, ?_⟩
  · intro p hh hl hp
    obtain ⟨sx, sy, hsx, hsy, ex, ey⟩ := path_displacement p c goal hh hl hp
    rw [hm]
    exact max_le (disp_bound c.x goal.x sx _ hsx ex hx.1 hx.2)
      (disp_bound c.y goal.y sy _ hsy ey hy.1 hy.2)
  · have hnn : 0 ≤ max |goal.x - c.x| |goal.y - c.y| := le_max_of_le_left (abs_nonneg _)
    obtain ⟨n, hn⟩ := Int.eq_ofNat_of_zero_le hnn
    obtain ⟨h1, h2, h3, h4⟩ := walk_spec n c goal hc hg hn
    refine ⟨walk n c goal, h1, h2, h3, ?_⟩
    rw [hm, hn, h4]
    push_cast
    omega

theorem manhattan_is_move_distance_witness :
    manhattan ⟨1, 1⟩ ⟨3, 3⟩ = max |(3 : Int) - 1| |(3 : Int) - 1| ∧
      (∀ p : List Coordinate, p.head? = some ⟨1, 1⟩ → p.getLast? = some ⟨3, 3⟩ → IsMovePath p →
        manhattan ⟨1, 1⟩ ⟨3, 3⟩ ≤ (p.length : Int) - 1) ∧
      (∃ p : List Coordinate, p.head? = some ⟨1, 1⟩ ∧ p.getLast? = some ⟨3, 3⟩ ∧ IsMovePath p ∧
        (p.length : Int) - 1 = manhattan ⟨1, 1⟩ ⟨3, 3⟩) :=
  manhattan_is_move_distance ⟨1, 1⟩ ⟨3, 3⟩ (by decide) (by decide) (by decide) (by decide)

theorem Matrix.Filled.mono {m : Matrix} {h w : Nat} {P Q : Nat → Nat → Prop}
    (hf : m.Filled h w P) (hq : ∀ x y, x < w → y < h → Q x y → P x y) : m.Filled h w Q := by
  refine ⟨hf.1, fun x y hx hy => ?_⟩
  obtain ⟨s, h1, h2, h3, h4⟩ := hf.2 x y hx hy
  exact ⟨s, h1, h2, h3, fun q => h4 (hq x y hx hy q)⟩

theorem Matrix.Filled_replicate (h w : Nat) :
    Matrix.Filled ⟨List.replicate h (List.replicate w default)⟩ h w (fun _ _ => False) := by
  refine ⟨List.length_replicate _ _, fun x y hx hy => ?_⟩
  refine ⟨default, ?_, rfl, rfl, fun hF => hF.elim⟩
  unfold Matrix.cell
  rw [List.getElem?_replicate_of_lt hy]
  exact List.getElem?_replicate_of_lt hx

theorem toSizeT_natCast (n : Nat) (hn : n ≤ 2147483647) : toSizeT (n : Int) = n := by
  unfold toSizeT
  omega

theorem Matrix.setCoordinate_Filled {m : Matrix} {h w : Nat} {P : Nat → Nat → Prop}
    (hf : m.Filled h w P) (X Y : Nat) (hX : X < w) (hY : Y < h)
    (c : Coordinate) (hcx : toSizeT c.x = X) (hcy : toSizeT c.y = Y) :
    ∃ m', m.setCoordinate c ⟨X, Y⟩ = .ok m' ∧
      m'.Filled h w (fun x y => P x y ∨ (x = X ∧ y = Y)) := by
  obtain ⟨hlen, hcells⟩ := hf
  obtain ⟨s, hs, hg, hr, hco⟩ := hcells X Y hX hY
  unfold Matrix.cell at hs
  cases hrow : m._data[Y]? with
  | none => rw [hrow] at hs; simp at hs
  | some row =>
    rw [hrow] at hs
    dsimp only at hs
    refine ⟨⟨m._data.set Y (row.set X { s with coordinate := ⟨X, Y⟩ })⟩, ?_, ?_⟩
    · unfold Matrix.setCoordinate
      rw [hcx, hcy, hrow]
      dsimp only
      rw [hs]
    · refine ⟨by simp [hlen], fun x y hx hy => ?_⟩
      obtain ⟨t, ht, htg, htr, htc⟩ := hcells x y hx hy
      unfold Matrix.cell at ht ⊢
      dsimp only
      rw [List.getElem?_set]
      by_cases hyY : Y = y
      · subst hyY
        rw [if_pos rfl, if_pos (by omega)]
        dsimp only
        rw [hrow] at ht
        dsimp only at ht
        rw [List.getElem?_set]
        by_cases hxX : X = x
        · subst hxX
          have hXlt : X < row.length := by
            have := List.getElem?_eq_some_iff.mp hs
            exact this.1
          rw [if_pos rfl, if_pos hXlt]
          exact ⟨_, rfl, hg, hr, fun _ => rfl⟩
        · rw [if_neg hxX]
          exact ⟨t, ht, htg, htr, fun hp => by
            rcases hp with hp | ⟨h1, _⟩
            · exact htc hp
            · exact absurd h1.symm hxX⟩
      · rw [if_neg hyY]
        exact ⟨t, ht, htg, htr, fun hp => by
          rcases hp with hp | ⟨_, h2⟩
          · exact htc hp
          · exact absurd h2.symm hyY⟩

theorem iadd_natCast_one (n : Nat) (hn : n < 2147483647) : iadd (n : Int) 1 = ((n + 1 : Nat) : Int) := by
  unfold iadd wrapInt
  omega

theorem Matrix.fillRow_Filled (h w Y : Nat) (hw : w ≤ 2147483647) (hY : Y < h)
    (yi : Int) (hyi : toSizeT yi = Y) (hyv : yi = (Y : Int)) :
    ∀ (n x0 : Nat) (m : Matrix) (P : Nat → Nat → Prop), x0 + n = w → m.Filled h w P →
      ∃ m', Matrix.fillRow yi n (x0 : Int) m = .ok m' ∧
        m'.Filled h w (fun x y => P x y ∨ (y = Y ∧ x0 ≤ x)) := by
  intro n
  induction n with
  | zero =>
    intro x0 m P hx hf
    exact ⟨m, rfl, hf.mono (fun x y hxw _ hq => by
      rcases hq with hq | ⟨_, h2⟩
      · exact hq
      · omega)⟩
  | succ n ih =>
    intro x0 m P hx hf
    obtain ⟨m1, hm1, hf1⟩ := Matrix.setCoordinate_Filled hf x0 Y (by omega) hY
      ⟨(x0 : Int), yi⟩ (toSizeT_natCast x0 (by omega)) hyi
    obtain ⟨m2, hm2, hf2⟩ := ih (x0 + 1) m1 _ (by omega) hf1
    refine ⟨m2, ?_, hf2.mono (fun x y _ _ hq => by
      rcases hq with hq | ⟨h1, h2⟩
      · exact Or.inl (Or.inl hq)
      · by_cases hxe : x = x0
        · exact Or.inl (Or.inr ⟨hxe, h1⟩)
        · exact Or.inr ⟨h1, by omega⟩)⟩
    unfold Matrix.fillRow
    rw [hyv] at hm1 ⊢
    rw [hm1]
    dsimp only
    rw [iadd_natCast_one x0 (by omega), ← hyv]
    exact hm2

theorem Matrix.fillRows_Filled (h w : Nat) (hh : h ≤ 2147483647) (hw : w ≤ 2147483647) :
    ∀ (n y0 : Nat) (m : Matrix) (P : Nat → Nat → Prop), y0 + n = h → m.Filled h w P →
      ∃ m', Matrix.fillRows w n (y0 : Int) m = .ok m' ∧
        m'.Filled h w (fun x y => P x y ∨ y0 ≤ y) := by
  intro n
  induction n with
  | zero =>
    intro y0 m P hy hf
    exact ⟨m, rfl, hf.mono (fun x y _ hyh hq => by
      rcases hq with hq | h2
      · exact hq
      · omega)⟩
  | succ n ih =>
    intro y0 m P hy hf
    obtain ⟨m1, hm1, hf1⟩ := Matrix.fillRow_Filled h w y0 hw (by omega) (y0 : Int)
      (toSizeT_natCast y0 (by omega)) rfl w 0 m P (by omega) hf
    obtain ⟨m2, hm2, hf2⟩ := ih (y0 + 1) m1 _ (by omega) hf1
    refine ⟨m2, ?_, hf2.mono (fun x y _ _ hq => by
      rcases hq with hq | h1
      · exact Or.inl (Or.inl hq)
      · by_cases hye : y = y0
        · exact Or.inl (Or.inr ⟨hye, by omega⟩)
        · exact Or.inr (by omega))⟩
    unfold Matrix.fillRows
    have h0 : ((0 : Nat) : Int) = 0 := rfl
    rw [h0] at hm1
    rw [hm1]
    dsimp only
    rw [iadd_natCast_one y0 (by omega)]
    exact hm2

theorem Matrix.new_Filled (h w : Nat) (hh : h ≤ 2147483647) (hw : w ≤ 2147483647) :
    ∃ m, Matrix.new h w = .ok m ∧ m.Filled h w (fun _ _ => True) := by
  obtain ⟨m, hm, hf⟩ := Matrix.fillRows_Filled h w hh hw h 0 _ _ (by omega)
    (Matrix.Filled_replicate h w)
  exact ⟨m, hm, hf.mono (fun _ _ _ _ _ => Or.inr (Nat.zero_le _))⟩

theorem Matrix.at_of_Filled {m : Matrix} {h w : Nat} {P : Nat → Nat → Prop}
    (hf : m.Filled h w P) (hh : h ≤ 2147483647) (hw : w ≤ 2147483647)
    (x y : Int) (hx : 0 ≤ x ∧ x < w) (hy : 0 ≤ y ∧ y < h) :
    ∃ s, m.at ⟨x, y⟩ = .ok s ∧ s.g = 0 ∧ s.r = 0 ∧
      (P x.toNat y.toNat → s.coordinate = ⟨x, y⟩) := by
  obtain ⟨s, h1, h2, h3, h4⟩ := hf.2 x.toNat y.toNat (by omega) (by omega)
  have ex : toSizeT x = x.toNat := by unfold toSizeT; omega
  have ey : toSizeT y = y.toNat := by unfold toSizeT; omega
  refine ⟨s, ?_, h2, h3, fun hp => ?_⟩
  · unfold Matrix.at
    dsimp only
    rw [ex, ey, h1]
  · rw [h4 hp]
    have e1 : ((x.toNat : Nat) : Int) = x := by omega
    have e2 : ((y.toNat : Nat) : Int) = y := by omega
    rw [e1, e2]

theorem Matrix.fillRow_out_of_range (yi : Int) (n : Nat) (x : Int) (m : Matrix)
    (hy : m._data.length ≤ toSizeT yi) :
    Matrix.fillRow yi (n + 1) x m = .error .OutOfRange := by
  unfold Matrix.fillRow Matrix.setCoordinate
  dsimp only
  rw [List.getElem?_eq_none hy]

theorem Matrix.fillRows_out_of_range (h w : Nat) (hh : h < 4294967296)
    (hw1 : 1 ≤ w) (hw : w ≤ 2147483647) :
    ∀ (n y0 : Nat) (m : Matrix) (P : Nat → Nat → Prop), y0 ≤ 2147483647 →
      2147483648 < y0 + n → m.Filled h w P →
      Matrix.fillRows w n (y0 : Int) m = .error .OutOfRange := by
  obtain ⟨w', rfl⟩ : ∃ w', w = w' + 1 := ⟨w - 1, by omega⟩
  intro n
  induction n with
  | zero =>
    intro y0 m P h1 h2 _
    omega
  | succ n ih =>
    intro y0 m P h1 h2 hf
    unfold Matrix.fillRows
    by_cases hy : y0 < h
    · obtain ⟨m1, hm1, hf1⟩ := Matrix.fillRow_Filled h (w' + 1) y0 hw hy (y0 : Int)
        (toSizeT_natCast y0 h1) rfl (w' + 1) 0 m P (by omega) hf
      have h0 : ((0 : Nat) : Int) = 0 := rfl
      rw [h0] at hm1
      rw [hm1]
      dsimp only
      by_cases hlast : y0 < 2147483647
      · rw [iadd_natCast_one y0 hlast]
        exact ih (y0 + 1) m1 _ (by omega) (by omega) hf1
      · have hy0 : y0 = 2147483647 := by omega
        obtain ⟨n', rfl⟩ : ∃ n', n = n' + 1 := ⟨n - 1, by omega⟩
        unfold Matrix.fillRows
        rw [Matrix.fillRow_out_of_range]
        rw [hf1.1, hy0]
        unfold iadd wrapInt toSizeT
        omega
    · rw [Matrix.fillRow_out_of_range]
      rw [hf.1, toSizeT_natCast y0 h1]
      omega

/-- C9 (counterexample): with `2^31 + 1` rows of one cell the row counter, an
`int`, wraps to `INT_MIN` and the constructor accesses `_data` out of range, so
no matrix is produced. -/
theorem Matrix_new_out_of_range :
    Matrix.new 2147483649 1 = .error .OutOfRange ∧ ¬ ∃ m, Matrix.new 2147483649 1 = .ok m := by
  have h : Matrix.new 2147483649 1 = .error .OutOfRange :=
    Matrix.fillRows_out_of_range 2147483649 1 (by decide) (by decide) (by decide)
      2147483649 0 _ _ (by decide) (by decide) (Matrix.Filled_replicate 2147483649 1)
  refine ⟨h, ?_⟩
  rintro ⟨m, hm⟩
  rw [h] at hm
  cases hm

/-- C9 (amended): for `height` and `width` up to `INT_MAX` the constructor makes
only in-range accesses, and afterwards every cell `at({x, y})` with
`0 ≤ x < width`, `0 ≤ y < height` exists and holds the coordinate `{x, y}`. -/
theorem Matrix_new_coordinates (height width : Nat)
    (hh : (height : Int) ≤ INT_MAX) (hw : (width : Int) ≤ INT_MAX) :
    ∃ m, Matrix.new height width = .ok m ∧
      ∀ x y : Int, 0 ≤ x ∧ x < width → 0 ≤ y ∧ y < height →
        ∃ s, m.at ⟨x, y⟩ = .ok s ∧ s.coordinate = ⟨x, y⟩ := by
  unfold INT_MAX at hh hw
  obtain ⟨m, hm, hf⟩ := Matrix.new_Filled height width (by omega) (by omega)
  refine ⟨m, hm, fun x y hx hy => ?_⟩
  obtain ⟨s, h1, -, -, h4⟩ := Matrix.at_of_Filled hf (by omega) (by omega) x y hx hy
  exact ⟨s, h1, h4 trivial⟩

theorem Matrix_new_coordinates_witness :
    ∃ m, Matrix.new 2 3 = .ok m ∧
      ∀ x y : Int, 0 ≤ x ∧ x < (3 : Nat) → 0 ≤ y ∧ y < (2 : Nat) →
        ∃ s, m.at ⟨x, y⟩ = .ok s ∧ s.coordinate = ⟨x, y⟩ :=
  Matrix_new_coordinates 2 3 (by decide) (by decide)

/-- C10 (counterexample): the only cell of `Matrix(1, 1)` has `g = r = 0`, which
is not `infinity()`. -/
theorem Matrix_new_cell_not_infinity :
    ∃ m s, Matrix.new 1 1 = .ok m ∧ m.at ⟨0, 0⟩ = .ok s ∧
      s.g = 0 ∧ s.r = 0 ∧ s.g ≠ infinity ∧ s.r ≠ infinity :=
  ⟨⟨[[⟨⟨0, 0⟩, 0, 0⟩]]⟩, ⟨⟨0, 0⟩, 0, 0⟩, rfl, rfl, rfl, rfl, by decide, by decide⟩

/-- C10 (amended): for `height` and `width` up to `INT_MAX`, right after
construction every cell `at({x, y})` with `0 ≤ x < width`, `0 ≤ y < height` has
`g = 0` and `r = 0`, the value-initialised contents. -/
theorem Matrix_new_g_r_zero (height width : Nat)
    (hh : (height : Int) ≤ INT_MAX) (hw : (width : Int) ≤ INT_MAX) :
    ∃ m, Matrix.new height width = .ok m ∧
      ∀ x y : Int, 0 ≤ x ∧ x < width → 0 ≤ y ∧ y < height →
        ∃ s, m.at ⟨x, y⟩ = .ok s ∧ s.g = 0 ∧ s.r = 0 := by
  unfold INT_MAX at hh hw
  obtain ⟨m, hm, hf⟩ := Matrix.new_Filled height width (by omega) (by omega)
  refine ⟨m, hm, fun x y hx hy => ?_⟩
  obtain ⟨s, h1, h2, h3, -⟩ := Matrix.at_of_Filled hf (by omega) (by omega) x y hx hy
  exact ⟨s, h1, h2, h3⟩

theorem Matrix_new_g_r_zero_witness :
    ∃ m, Matrix.new 2 3 = .ok m ∧
      ∀ x y : Int, 0 ≤ x ∧ x < (3 : Nat) → 0 ≤ y ∧ y < (2 : Nat) →
        ∃ s, m.at ⟨x, y⟩ = .ok s ∧ s.g = 0 ∧ s.r = 0 :=
  Matrix_new_g_r_zero 2 3 (by decide) (by decide)

end lp

/-! ### Strict weak orders -/

theorem StrictWeakOrder.asymm {α : Type} {cmp : α → α → Bool} (h : StrictWeakOrder cmp)
    {a b : α} (hab : cmp a b = true) : cmp b a = false := by
  cases hba : cmp b a with
  | false => rfl
  | true =>
    have := h.trans a b a hab hba
    rw [h.irrefl a] at this
    exact absurd this (by decide)

theorem StrictWeakOrder.neg_trans {α : Type} {cmp : α → α → Bool} (h : StrictWeakOrder cmp)
    {a b c : α} (hab : cmp a b = false) (hbc : cmp b c = false) : cmp a c = false := by
  cases hac : cmp a c with
  | false => rfl
  | true =>
    cases hba : cmp b a with
    | true =>
      have := h.trans b a c hba hac
      rw [hbc] at this
      exact absurd this (by decide)
    | false =>
      cases hcb : cmp c b with
      | true =>
        have := h.trans a c b hac hcb
        rw [hab] at this
        exact absurd this (by decide)
      | false =>
        have := (h.incomp_trans a b c ⟨hab, hba⟩ ⟨hbc, hcb⟩).1
        rw [hac] at this
        exact absurd this (by decide)

/-! ### Swapping two positions -/

theorem swapAt_length {α : Type} (xs : List α) (i j : Nat) :
    (swapAt xs i j).length = xs.length := by
  unfold swapAt
  split <;> simp

theorem swapAt_getElem? {α : Type} (xs : List α) (i j t : Nat)
    (hi : i < xs.length) (hj : j < xs.length) :
    (swapAt xs i j)[t]? = if t = i then xs[j]? else if t = j then xs[i]? else xs[t]? := by
  unfold swapAt
  rw [List.getElem?_eq_getElem hi, List.getElem?_eq_getElem hj]
  dsimp only
  rw [List.getElem?_set, List.getElem?_set]
  simp only [List.length_set]
  by_cases h1 : t = i
  · subst h1
    by_cases h2 : j = t
    · subst h2
      simp [hj]
    · have h3 : ¬ t = j := fun h => h2 h.symm
      simp [h2, hi]
  · by_cases h2 : t = j
    · subst h2
      simp [h1, hj, hi]
    · have h3 : ¬ j = t := fun h => h2 h.symm
      have h4 : ¬ i = t := fun h => h1 h.symm
      simp [h1, h2, h3, h4]

theorem set_perm_cons {α : Type} :
    ∀ (xs : List α) (j : Nat) (b x : α), xs[j]? = some b → (b :: xs.set j x).Perm (x :: xs) := by
  intro xs
  induction xs with
  | nil => intro j b x h; simp at h
  | cons y ys ih =>
    intro j b x h
    cases j with
    | zero =>
      simp only [List.getElem?_cons_zero, Option.some.injEq] at h
      subst h
      exact List.Perm.swap _ _ _
    | succ j =>
      simp only [List.getElem?_cons_succ] at h
      simp only [List.set_cons_succ]
      exact ((List.Perm.swap y b _).trans ((ih j b x h).cons y)).trans (List.Perm.swap x y ys)

theorem set_set_perm_of {α : Type} :
    ∀ (xs : List α) (i j : Nat) (a b : α), xs[i]? = some a → xs[j]? = some b →
      ((xs.set i b).set j a).Perm xs := by
  intro xs
  induction xs with
  | nil => intro i j a b h; simp at h
  | cons y ys ih =>
    intro i j a b hi hj
    cases i with
    | zero =>
      simp only [List.getElem?_cons_zero, Option.some.injEq] at hi
      subst hi
      cases j with
      | zero =>
        simp only [List.getElem?_cons_zero, Option.some.injEq] at hj
        subst hj
        simp
      | succ j =>
        simp only [List.getElem?_cons_succ] at hj
        simp only [List.set_cons_zero, List.set_cons_succ]
        exact set_perm_cons ys j b y hj
    | succ i =>
      simp only [List.getElem?_cons_succ] at hi
      cases j with
      | zero =>
        simp only [List.getElem?_cons_zero, Option.some.injEq] at hj
        subst hj
        simp only [List.set_cons_zero, List.set_cons_succ]
        exact set_perm_cons ys i a y hi
      | succ j =>
        simp only [List.getElem?_cons_succ] at hj
        simp only [List.set_cons_succ]
        exact (ih i j a b hi hj).cons y

theorem swapAt_perm {α : Type} (xs : List α) (i j : Nat) : (swapAt xs i j).Perm xs := by
  unfold swapAt
  split
  · rename_i a b hi hj
    exact set_set_perm_of xs i j a b hi hj
  · exact List.Perm.refl _

/-! ### Index arithmetic from position zero -/

theorem left_child_zero (n i : Nat) : left_child 0 n i = if 2 * i + 1 < n then 2 * i + 1 else n := by
  unfold left_child
  simp

theorem right_child_zero (n i : Nat) :
    right_child 0 n i = if 2 * i + 2 < n then 2 * i + 2 else n := by
  unfold right_child
  simp

theorem parent_zero (i : Nat) : parent 0 i = (i - 1) / 2 := by
  unfold parent
  split
  · subst_vars
    rfl
  · simp

/-! ### The selection step of `heapify` -/

theorem cmpAt_eq {α : Type} (cmp : α → α → Bool) (xs : List α) (a b : Nat) (x y : α)
    (ha : xs[a]? = some x) (hb : xs[b]? = some y) : cmpAt cmp xs a b = cmp x y := by
  unfold cmpAt
  rw [ha, hb]

theorem extreme_spec {α : Type} {cmp : α → α → Bool} (h : StrictWeakOrder cmp)
    (xs : List α) (i : Nat) :
    (extreme cmp xs i = i ∧ NoChildBetter cmp xs i) ∨
      ((extreme cmp xs i = 2 * i + 1 ∨ extreme cmp xs i = 2 * i + 2) ∧
        extreme cmp xs i < xs.length ∧
        ∃ vm vi, xs[extreme cmp xs i]? = some vm ∧ xs[i]? = some vi ∧ cmp vm vi = true ∧
          ∀ c a, (c = 2 * i + 1 ∨ c = 2 * i + 2) → xs[c]? = some a → cmp a vm = false) := by
  by_cases h1 : 2 * i + 1 < xs.length
  · have hi : i < xs.length := by omega
    have evi : xs[i]? = some xs[i] := List.getElem?_eq_getElem hi
    have evl : xs[2 * i + 1]? = some xs[2 * i + 1] := List.getElem?_eq_getElem h1
    generalize xs[i] = vi at evi
    generalize xs[2 * i + 1] = vl at evl
    have hl : left_child 0 xs.length i = 2 * i + 1 := by rw [left_child_zero, if_pos h1]
    have hn1 : 2 * i + 1 ≠ xs.length := by omega
    have hcl : cmpAt cmp xs (2 * i + 1) i = cmp vl vi := cmpAt_eq cmp xs _ _ vl vi evl evi
    by_cases h2 : 2 * i + 2 < xs.length
    · have evr : xs[2 * i + 2]? = some xs[2 * i + 2] := List.getElem?_eq_getElem h2
      generalize xs[2 * i + 2] = vr at evr
      have hr : right_child 0 xs.length i = 2 * i + 2 := by rw [right_child_zero, if_pos h2]
      have hn2 : 2 * i + 2 ≠ xs.length := by omega
      have hcrl : cmpAt cmp xs (2 * i + 2) (2 * i + 1) = cmp vr vl :=
        cmpAt_eq cmp xs _ _ vr vl evr evl
      have hcri : cmpAt cmp xs (2 * i + 2) i = cmp vr vi := cmpAt_eq cmp xs _ _ vr vi evr evi
      cases hli : cmp vl vi with
      | true =>
        cases hrl : cmp vr vl with
        | true =>
          have hex : extreme cmp xs i = 2 * i + 2 := by
            simp [extreme, hl, hr, hn1, hn2, hcl, hcrl, hli, hrl]
          right
          rw [hex]
          refine ⟨Or.inr rfl, h2, vr, vi, evr, evi, h.trans _ _ _ hrl hli, ?_⟩
          intro c a hc hca
          rcases hc with rfl | rfl
          · rw [evl] at hca
            cases hca
            exact h.asymm hrl
          · rw [evr] at hca
            cases hca
            exact h.irrefl _
        | false =>
          have hex : extreme cmp xs i = 2 * i + 1 := by
            simp [extreme, hl, hr, hn1, hn2, hcl, hcrl, hli, hrl]
          right
          rw [hex]
          refine ⟨Or.inl rfl, h1, vl, vi, evl, evi, hli, ?_⟩
          intro c a hc hca
          rcases hc with rfl | rfl
          · rw [evl] at hca
            cases hca
            exact h.irrefl _
          · rw [evr] at hca
            cases hca
            exact hrl
      | false =>
        cases hri : cmp vr vi with
        | true =>
          have hex : extreme cmp xs i = 2 * i + 2 := by
            simp [extreme, hl, hr, hn1, hn2, hcl, hcri, hli, hri]
          right
          rw [hex]
          refine ⟨Or.inr rfl, h2, vr, vi, evr, evi, hri, ?_⟩
          intro c a hc hca
          rcases hc with rfl | rfl
          · rw [evl] at hca
            cases hca
            cases hlr : cmp vl vr with
            | false => rfl
            | true =>
              have := h.trans _ _ _ hlr hri
              rw [hli] at this
              exact absurd this (by decide)
          · rw [evr] at hca
            cases hca
            exact h.irrefl _
        | false =>
          have hex : extreme cmp xs i = i := by
            simp [extreme, hl, hr, hn1, hn2, hcl, hcri, hli, hri]
          left
          refine ⟨hex, ?_⟩
          intro c a b hc hca hb
          rw [evi] at hb
          cases hb
          rcases hc with rfl | rfl
          · rw [evl] at hca
            cases hca
            exact hli
          · rw [evr] at hca
            cases hca
            exact hri
    · have hr : right_child 0 xs.length i = xs.length := by rw [right_child_zero, if_neg h2]
      have enr : xs[2 * i + 2]? = none := List.getElem?_eq_none (by omega)
      cases hli : cmp vl vi with
      | true =>
        have hex : extreme cmp xs i = 2 * i + 1 := by
          simp [extreme, hl, hr, hn1, hcl, hli]
        right
        rw [hex]
        refine ⟨Or.inl rfl, h1, vl, vi, evl, evi, hli, ?_⟩
        intro c a hc hca
        rcases hc with rfl | rfl
        · rw [evl] at hca
          cases hca
          exact h.irrefl _
        · rw [enr] at hca
          cases hca
      | false =>
        have hex : extreme cmp xs i = i := by
          simp [extreme, hl, hr, hn1, hcl, hli]
        left
        refine ⟨hex, ?_⟩
        intro c a b hc hca hb
        rw [evi] at hb
        cases hb
        rcases hc with rfl | rfl
        · rw [evl] at hca
          cases hca
          exact hli
        · rw [enr] at hca
          cases hca
  · have hl : left_child 0 xs.length i = xs.length := by rw [left_child_zero, if_neg h1]
    have hr : right_child 0 xs.length i = xs.length := by
      rw [right_child_zero, if_neg (by omega)]
    have hex : extreme cmp xs i = i := by
      simp [extreme, hl, hr]
    left
    refine ⟨hex, ?_⟩
    intro c a b hc hca _
    have : xs[c]? = none := List.getElem?_eq_none (by omega)
    rw [this] at hca
    cases hca

/-! ### `heapify` restores the heap property -/

theorem siftDown_step {α : Type} {cmp : α → α → Bool} (h : StrictWeakOrder cmp)
    (xs : List α) (k cur m : Nat) (hm : m = 2 * cur + 1 ∨ m = 2 * cur + 2)
    (hmlt : m < xs.length) (vm vi : α) (evm : xs[m]? = some vm) (evi : xs[cur]? = some vi)
    (hcmp : cmp vm vi = true)
    (hbest : ∀ c a, (c = 2 * cur + 1 ∨ c = 2 * cur + 2) → xs[c]? = some a → cmp a vm = false)
    (inv : SiftDownInv cmp xs k cur) : SiftDownInv cmp (swapAt xs cur m) k m := by
  have hcur : cur < xs.length := by omega
  have G : ∀ t, (swapAt xs cur m)[t]? =
      if t = cur then xs[m]? else if t = m then xs[cur]? else xs[t]? :=
    fun t => swapAt_getElem? xs cur m t hcur hmlt
  refine ⟨?_, ?_⟩
  · intro i hki him c a b hc hca hb
    rw [G] at hca hb
    by_cases hic : i = cur
    · subst hic
      rw [if_pos rfl, evm] at hb
      cases hb
      rw [if_neg (by omega)] at hca
      by_cases hcm : c = m
      · rw [if_pos hcm, evi] at hca
        cases hca
        exact h.asymm hcmp
      · rw [if_neg hcm] at hca
        exact hbest c a hc hca
    · rw [if_neg hic, if_neg him] at hb
      by_cases hcc : c = cur
      · rw [if_pos hcc, evm] at hca
        cases hca
        exact inv.2 i m _ b hki (by omega) hm evm hb
      · rw [if_neg hcc] at hca
        by_cases hcm : c = m
        · omega
        · rw [if_neg hcm] at hca
          exact inv.1 i hki hic c a b hc hca hb
  · intro p c a b hkp hmp hc hca hb
    have hp : p = cur := by omega
    subst hp
    rw [G] at hca hb
    rw [if_pos rfl, evm] at hb
    cases hb
    rw [if_neg (by omega), if_neg (by omega)] at hca
    exact inv.1 m (by omega) (by omega) c a _ hc hca evm

theorem heapifyAux_length {α : Type} (cmp : α → α → Bool) :
    ∀ (fuel : Nat) (xs : List α) (i : Nat), (heapifyAux cmp fuel xs i).length = xs.length := by
  intro fuel
  induction fuel with
  | zero => intro xs i; rfl
  | succ fuel ih =>
    intro xs i
    unfold heapifyAux
    split
    · rw [ih, swapAt_length]
    · rfl

theorem heapifyAux_perm {α : Type} (cmp : α → α → Bool) :
    ∀ (fuel : Nat) (xs : List α) (i : Nat), (heapifyAux cmp fuel xs i).Perm xs := by
  intro fuel
  induction fuel with
  | zero => intro xs i; exact List.Perm.refl _
  | succ fuel ih =>
    intro xs i
    unfold heapifyAux
    split
    · exact (ih _ _).trans (swapAt_perm _ _ _)
    · exact List.Perm.refl _

theorem heapifyAux_heap {α : Type} {cmp : α → α → Bool} (h : StrictWeakOrder cmp) (k : Nat) :
    ∀ (fuel : Nat) (xs : List α) (cur : Nat), SiftDownInv cmp xs k cur → k ≤ cur →
      xs.length ≤ cur + fuel → HeapFrom cmp (heapifyAux cmp fuel xs cur) k := by
  intro fuel
  induction fuel with
  | zero =>
    intro xs cur inv _ hlen i hki
    by_cases hic : i = cur
    · subst hic
      intro c a b hc hca _
      have : xs[c]? = none := List.getElem?_eq_none (by omega)
      rw [heapifyAux, this] at hca
      cases hca
    · exact inv.1 i hki hic
  | succ fuel ih =>
    intro xs cur inv hk hlen
    unfold heapifyAux
    rcases extreme_spec h xs cur with ⟨hex, hno⟩ | ⟨hm, hmlt, vm, vi, evm, evi, hcmp, hbest⟩
    · rw [if_neg (by rw [hex]; exact fun hne => hne rfl)]
      intro i hki
      by_cases hic : i = cur
      · subst hic
        exact hno
      · exact inv.1 i hki hic
    · rw [if_pos (by omega)]
      apply ih
      · exact siftDown_step h xs k cur _ hm hmlt vm vi evm evi hcmp hbest inv
      · omega
      · rw [swapAt_length]
        omega

theorem heapify_length {α : Type} (cmp : α → α → Bool) (xs : List α) (i : Nat) :
    (heapify cmp xs i).length = xs.length :=
  heapifyAux_length cmp _ xs i

theorem heapify_perm {α : Type} (cmp : α → α → Bool) (xs : List α) (i : Nat) :
    (heapify cmp xs i).Perm xs :=
  heapifyAux_perm cmp _ xs i

theorem heapify_heap {α : Type} {cmp : α → α → Bool} (h : StrictWeakOrder cmp)
    (xs : List α) (k : Nat) (inv : SiftDownInv cmp xs k k) : HeapFrom cmp (heapify cmp xs k) k :=
  heapifyAux_heap h k xs.length xs k inv (Nat.le_refl _) (by omega)

/-! ### `build_heap` -/

theorem build_heap_from_perm {α : Type} (cmp : α → α → Bool) :
    ∀ (k : Nat) (xs : List α), (build_heap_from cmp k xs).Perm xs := by
  intro k
  induction k with
  | zero => intro xs; exact List.Perm.refl _
  | succ k ih =>
    intro xs
    unfold build_heap_from
    exact (ih _).trans (heapify_perm cmp xs k)

theorem build_heap_from_heap {α : Type} {cmp : α → α → Bool} (h : StrictWeakOrder cmp) :
    ∀ (k : Nat) (xs : List α), HeapFrom cmp xs k → IsHeap cmp (build_heap_from cmp k xs) := by
  intro k
  induction k with
  | zero =>
    intro xs hf i
    exact hf i (Nat.zero_le _)
  | succ k ih =>
    intro xs hf
    unfold build_heap_from
    apply ih
    apply heapify_heap h
    refine ⟨?_, ?_⟩
    · intro i hki hne
      exact hf i (by omega)
    · intro p c a b hkp hc
      omega

theorem build_heap_perm {α : Type} (cmp : α → α → Bool) (xs : List α) :
    (build_heap cmp xs).Perm xs :=
  build_heap_from_perm cmp _ xs

theorem build_heap_heap {α : Type} {cmp : α → α → Bool} (h : StrictWeakOrder cmp)
    (xs : List α) : IsHeap cmp (build_heap cmp xs) := by
  apply build_heap_from_heap h
  intro i hi c a b hc hca _
  have : xs[c]? = none := List.getElem?_eq_none (by omega)
  rw [this] at hca
  cases hca

/-! ### The root of a heap, `pop` and the pop order -/

theorem heap_top {α : Type} {cmp : α → α → Bool} (h : StrictWeakOrder cmp) (xs : List α)
    (hh : IsHeap cmp xs) (t : α) (ht : xs[0]? = some t) :
    ∀ (i : Nat) (a : α), xs[i]? = some a → cmp a t = false := by
  intro i
  induction i using Nat.strong_induction_on with
  | _ i ih =>
    intro a ha
    by_cases hi : i = 0
    · subst hi
      rw [ht] at ha
      cases ha
      exact h.irrefl _
    · have hlt : i < xs.length := (List.getElem?_eq_some_iff.mp ha).1
      have hp : (i - 1) / 2 < xs.length := by omega
      have hpv : xs[(i - 1) / 2]? = some xs[(i - 1) / 2] := List.getElem?_eq_getElem hp
      have h1 : cmp xs[(i - 1) / 2] t = false := ih ((i - 1) / 2) (by omega) _ hpv
      have h2 : cmp a xs[(i - 1) / 2] = false :=
        hh ((i - 1) / 2) i a _ (by omega) ha hpv
      exact h.neg_trans h2 h1

theorem heap_top_mem {α : Type} {cmp : α → α → Bool} (h : StrictWeakOrder cmp) (xs : List α)
    (hh : IsHeap cmp xs) (t : α) (ht : xs[0]? = some t) (a : α) (ha : a ∈ xs) :
    cmp a t = false := by
  obtain ⟨i, hi⟩ := List.getElem?_of_mem ha
  exact heap_top h xs hh t ht i a hi

theorem pop_seq_perm {α : Type} (cmp : α → α → Bool) (xs : List α) (t : α)
    (ht : xs[0]? = some t) :
    (t :: heapify cmp (swapAt xs 0 (xs.length - 1)).dropLast 0).Perm xs := by
  have hpos : 0 < xs.length := (List.getElem?_eq_some_iff.mp ht).1
  have hlast : (swapAt xs 0 (xs.length - 1)).getLast? = some t := by
    rw [List.getLast?_eq_getElem?, swapAt_length,
      swapAt_getElem? xs 0 (xs.length - 1) _ hpos (by omega)]
    by_cases hz : xs.length - 1 = 0
    · rw [if_pos hz, hz]
      exact ht
    · rw [if_neg hz, if_pos rfl]
      exact ht
  have hsplit : (swapAt xs 0 (xs.length - 1)).dropLast ++ [t] = swapAt xs 0 (xs.length - 1) :=
    List.dropLast_append_getLast? t hlast
  have h1 : (t :: heapify cmp (swapAt xs 0 (xs.length - 1)).dropLast 0).Perm
      (t :: (swapAt xs 0 (xs.length - 1)).dropLast) := (heapify_perm cmp _ 0).cons t
  have h2 : (t :: (swapAt xs 0 (xs.length - 1)).dropLast).Perm
      ((swapAt xs 0 (xs.length - 1)).dropLast ++ [t]) := (List.perm_append_singleton t _).symm
  rw [hsplit] at h2
  exact (h1.trans h2).trans (swapAt_perm xs 0 _)

theorem pop_seq_heap {α : Type} {cmp : α → α → Bool} (h : StrictWeakOrder cmp) (xs : List α)
    (hpos : 0 < xs.length) (hh : IsHeap cmp xs) :
    IsHeap cmp (heapify cmp (swapAt xs 0 (xs.length - 1)).dropLast 0) := by
  have G : ∀ t, 0 < t → ∀ v, (swapAt xs 0 (xs.length - 1)).dropLast[t]? = some v →
      xs[t]? = some v := by
    intro t ht v hv
    rw [List.getElem?_dropLast, swapAt_length] at hv
    by_cases hlt : t < xs.length - 1
    · rw [if_pos hlt, swapAt_getElem? xs 0 (xs.length - 1) t hpos (by omega),
        if_neg (by omega), if_neg (by omega)] at hv
      exact hv
    · rw [if_neg hlt] at hv
      cases hv
  have hf : HeapFrom cmp (heapify cmp (swapAt xs 0 (xs.length - 1)).dropLast 0) 0 := by
    apply heapify_heap h
    refine ⟨?_, ?_⟩
    · intro i _ hi c a b hc hca hb
      exact hh i c a b hc (G c (by omega) a hca) (G i (by omega) b hb)
    · intro p c a b _ hp
      omega
  intro i
  exact hf i (Nat.zero_le _)

theorem drainAux_spec {α : Type} {cmp : α → α → Bool} (h : StrictWeakOrder cmp) :
    ∀ (fuel : Nat) (q : PriorityQueue α), q._compare = cmp → IsHeap cmp q._seq →
      q._seq.length ≤ fuel →
      (PriorityQueue.drainAux fuel q).Perm q._seq ∧
        (PriorityQueue.drainAux fuel q).Pairwise (fun a b => cmp b a = false) := by
  intro fuel
  induction fuel with
  | zero =>
    intro q _ _ hlen
    have : q._seq = [] := List.length_eq_zero.mp (by omega)
    rw [this]
    exact ⟨List.Perm.refl _, List.Pairwise.nil⟩
  | succ fuel ih =>
    intro q hq hh hlen
    obtain ⟨seq, c⟩ := q
    dsimp only at hq hh hlen ⊢
    subst hq
    cases seq with
    | nil =>
      exact ⟨List.Perm.refl _, List.Pairwise.nil⟩
    | cons t rest =>
      have ht : (t :: rest)[0]? = some t := by simp
      have hpos : 0 < (t :: rest).length := by simp
      have hperm := pop_seq_perm c (t :: rest) t ht
      have hheap := pop_seq_heap h (t :: rest) hpos hh
      have hlen' : (heapify c (swapAt (t :: rest) 0 ((t :: rest).length - 1)).dropLast 0).length
          ≤ fuel := by
        rw [heapify_length, List.length_dropLast, swapAt_length]
        omega
      obtain ⟨ih1, ih2⟩ := ih
        ⟨heapify c (swapAt (t :: rest) 0 ((t :: rest).length - 1)).dropLast 0, c⟩ rfl hheap hlen'
      have hd : PriorityQueue.drainAux (fuel + 1) ⟨t :: rest, c⟩ =
          t :: PriorityQueue.drainAux fuel
            ⟨heapify c (swapAt (t :: rest) 0 ((t :: rest).length - 1)).dropLast 0, c⟩ := by
        simp [PriorityQueue.drainAux, PriorityQueue.empty, PriorityQueue.top, PriorityQueue.pop]
      rw [hd]
      refine ⟨(ih1.cons t).trans hperm, ?_⟩
      rw [List.pairwise_cons]
      refine ⟨?_, ih2⟩
      intro b hb
      have hb1 : b ∈ heapify c (swapAt (t :: rest) 0 ((t :: rest).length - 1)).dropLast 0 :=
        ih1.mem_iff.mp hb
      have hb2 : b ∈ t :: rest := hperm.mem_iff.mp (List.mem_cons_of_mem t hb1)
      exact heap_top_mem h (t :: rest) hh t ht b hb2

/-! ### `push` keeps the heap property -/

theorem cmpAt_true {α : Type} {cmp : α → α → Bool} {xs : List α} {a b : Nat}
    (h : cmpAt cmp xs a b = true) :
    ∃ x y, xs[a]? = some x ∧ xs[b]? = some y ∧ cmp x y = true := by
  unfold cmpAt at h
  split at h
  · rename_i x y hx hy
    exact ⟨x, y, hx, hy, h⟩
  · cases h

theorem siftUp_step {α : Type} {cmp : α → α → Bool} (h : StrictWeakOrder cmp)
    (xs : List α) (cur : Nat) (hcur : cur ≠ 0) (vc vp : α)
    (evc : xs[cur]? = some vc) (evp : xs[(cur - 1) / 2]? = some vp) (hcmp : cmp vc vp = true)
    (inv : SiftUpInv cmp xs cur) : SiftUpInv cmp (swapAt xs cur ((cur - 1) / 2)) ((cur - 1) / 2) := by
  have hlt : cur < xs.length := (List.getElem?_eq_some_iff.mp evc).1
  have hpl : (cur - 1) / 2 < xs.length := by omega
  have G : ∀ t, (swapAt xs cur ((cur - 1) / 2))[t]? =
      if t = cur then xs[(cur - 1) / 2]? else if t = (cur - 1) / 2 then xs[cur]? else xs[t]? :=
    fun t => swapAt_getElem? xs cur _ t hlt hpl
  have hcp : cur = 2 * ((cur - 1) / 2) + 1 ∨ cur = 2 * ((cur - 1) / 2) + 2 := by omega
  generalize (cur - 1) / 2 = p at *
  refine ⟨?_, ?_⟩
  · intro i c a b hc hcp' hca hb
    rw [G] at hca hb
    by_cases hcc : c = cur
    · have hip : i = p := by omega
      subst hip
      rw [if_pos hcc, evp] at hca
      cases hca
      rw [if_neg (by omega), if_pos rfl, evc] at hb
      cases hb
      exact h.asymm hcmp
    · rw [if_neg hcc, if_neg hcp'] at hca
      by_cases hip : i = p
      · subst hip
        rw [if_neg (by omega), if_pos rfl, evc] at hb
        cases hb
        have h1 : cmp a vp = false := inv.1 i c a vp hc hcc hca evp
        cases hab : cmp a vc with
        | false => rfl
        | true =>
          have := h.trans _ _ _ hab hcmp
          rw [h1] at this
          exact absurd this (by decide)
      · by_cases hic : i = cur
        · rw [if_pos hic, evp] at hb
          cases hb
          subst hic
          exact inv.2 p c a _ hcp hc hca evp
        · rw [if_neg hic, if_neg hip] at hb
          exact inv.1 i c a b hc hcc hca hb
  · intro q c a b hpq hc hca hb
    rw [G] at hca hb
    rw [if_neg (by omega), if_neg (by omega)] at hb
    have h2 : cmp vp b = false := inv.1 q p vp b hpq (by omega) evp hb
    by_cases hcc : c = cur
    · rw [if_pos hcc, evp] at hca
      cases hca
      exact h2
    · rw [if_neg hcc, if_neg (by omega)] at hca
      exact h.neg_trans (inv.1 p c a vp hc hcc hca evp) h2

theorem siftUpAux_perm {α : Type} (cmp : α → α → Bool) :
    ∀ (fuel : Nat) (xs : List α) (i : Nat), (siftUpAux cmp fuel xs i).Perm xs := by
  intro fuel
  induction fuel with
  | zero => intro xs i; exact List.Perm.refl _
  | succ fuel ih =>
    intro xs i
    unfold siftUpAux
    split
    · exact (ih _ _).trans (swapAt_perm _ _ _)
    · exact List.Perm.refl _

theorem siftUpAux_heap {α : Type} {cmp : α → α → Bool} (h : StrictWeakOrder cmp) :
    ∀ (fuel : Nat) (xs : List α) (cur : Nat), SiftUpInv cmp xs cur → cur ≤ fuel →
      IsHeap cmp (siftUpAux cmp fuel xs cur) := by
  intro fuel
  induction fuel with
  | zero =>
    intro xs cur inv hle i c a b hc hca hb
    exact inv.1 i c a b hc (by omega) hca hb
  | succ fuel ih =>
    intro xs cur inv hle
    unfold siftUpAux
    by_cases hgo : cur ≠ 0 ∧ cmpAt cmp xs cur (parent 0 cur) = true
    · rw [if_pos hgo]
      obtain ⟨hne, hc⟩ := hgo
      rw [parent_zero] at hc ⊢
      obtain ⟨vc, vp, evc, evp, hcmp⟩ := cmpAt_true hc
      exact ih _ _ (siftUp_step h xs cur hne vc vp evc evp hcmp inv) (by omega)
    · rw [if_neg hgo]
      intro i c a b hc hca hb
      by_cases hcc : c = cur
      · subst hcc
        have hne : c ≠ 0 := by omega
        have hp : (c - 1) / 2 = i := by omega
        have hf : cmpAt cmp xs c (parent 0 c) = false := by
          cases hv : cmpAt cmp xs c (parent 0 c) with
          | false => rfl
          | true => exact absurd ⟨hne, hv⟩ hgo
        rw [parent_zero, hp, cmpAt_eq cmp xs c i a b hca hb] at hf
        exact hf
      · exact inv.1 i c a b hc hcc hca hb

theorem push_seq_heap {α : Type} {cmp : α → α → Bool} (h : StrictWeakOrder cmp)
    (xs : List α) (a : α) (hh : IsHeap cmp xs) :
    IsHeap cmp (siftUp cmp (xs ++ [a]) xs.length) := by
  apply siftUpAux_heap h _ _ _ _ (Nat.le_refl _)
  refine ⟨?_, ?_⟩
  · intro i c x y hc hcn hcx hiy
    have hcl : c < (xs ++ [a]).length := (List.getElem?_eq_some_iff.mp hcx).1
    rw [List.length_append, List.length_singleton] at hcl
    have hc' : c < xs.length := by omega
    rw [List.getElem?_append_left hc'] at hcx
    rw [List.getElem?_append_left (by omega)] at hiy
    exact hh i c x y hc hcx hiy
  · intro p c x y _ hc hcx _
    have hcl : c < (xs ++ [a]).length := (List.getElem?_eq_some_iff.mp hcx).1
    rw [List.length_append, List.length_singleton] at hcl
    omega

theorem push_seq_perm {α : Type} (cmp : α → α → Bool) (xs : List α) (a : α) :
    (siftUp cmp (xs ++ [a]) xs.length).Perm (a :: xs) :=
  (siftUpAux_perm cmp _ _ _).trans (List.perm_append_singleton a xs)

theorem pushAll_spec {α : Type} {cmp : α → α → Bool} (h : StrictWeakOrder cmp) :
    ∀ (items : List α) (q : PriorityQueue α), q._compare = cmp → IsHeap cmp q._seq →
      (items.foldl PriorityQueue.push q)._compare = cmp ∧
        IsHeap cmp (items.foldl PriorityQueue.push q)._seq ∧
        (items.foldl PriorityQueue.push q)._seq.Perm (items.reverse ++ q._seq) := by
  intro items
  induction items with
  | nil =>
    intro q hq hh
    exact ⟨hq, hh, List.Perm.refl _⟩
  | cons a rest ih =>
    intro q hq hh
    obtain ⟨seq, c⟩ := q
    dsimp only at hq hh
    subst hq
    obtain ⟨h1, h2, h3⟩ := ih (PriorityQueue.push ⟨seq, c⟩ a) rfl (push_seq_heap h seq a hh)
    refine ⟨h1, h2, ?_⟩
    rw [List.foldl_cons, List.reverse_cons, List.append_assoc]
    exact h3.trans ((push_seq_perm c seq a).append_left _)

theorem heap_top_exists {α : Type} {cmp : α → α → Bool} (h : StrictWeakOrder cmp)
    (q : PriorityQueue α) (hq : q._compare = cmp) (hh : IsHeap cmp q._seq)
    (hne : q._seq ≠ []) :
    ∃ t, q.top = .ok t ∧ t ∈ q._seq ∧ ∀ x ∈ q._seq, cmp x t = false := by
  obtain ⟨seq, c⟩ := q
  dsimp only at hq hh hne ⊢
  cases seq with
  | nil => exact absurd rfl hne
  | cons t rest =>
    refine ⟨t, rfl, List.mem_cons_self _ _, fun x hx => ?_⟩
    exact heap_top_mem h (t :: rest) hh t (by simp) x hx

/-! ### The recursion bounds are large enough

The recursive functions above take a bound on the number of calls. The bounds
used by `heapify`, `siftUp` and `drain` are never reached: a larger bound gives
the same result. -/

theorem extreme_cases {α : Type} (cmp : α → α → Bool) (xs : List α) (i : Nat) :
    extreme cmp xs i = i ∨
      ((extreme cmp xs i = 2 * i + 1 ∨ extreme cmp xs i = 2 * i + 2) ∧
        extreme cmp xs i < xs.length) := by
  unfold extreme
  simp only [left_child_zero, right_child_zero]
  by_cases h1 : 2 * i + 1 < xs.length
  · by_cases h2 : 2 * i + 2 < xs.length
    · simp only [if_pos h1, if_pos h2]
      split_ifs <;> omega
    · simp only [if_pos h1, if_neg h2]
      split_ifs <;> omega
  · have h2 : ¬ 2 * i + 2 < xs.length := by omega
    simp only [if_neg h1, if_neg h2]
    split_ifs <;> omega

theorem heapifyAux_fuel {α : Type} (cmp : α → α → Bool) :
    ∀ (fuel : Nat) (xs : List α) (i : Nat), xs.length ≤ i + fuel →
      ∀ extra, heapifyAux cmp (fuel + extra) xs i = heapifyAux cmp fuel xs i := by
  intro fuel
  induction fuel with
  | zero =>
    intro xs i hlen extra
    cases extra with
    | zero => rfl
    | succ extra =>
      have hself : extreme cmp xs i = i := by
        rcases extreme_cases cmp xs i with h | ⟨h1, h2⟩
        · exact h
        · omega
      simp only [Nat.zero_add, heapifyAux, hself, ne_eq, not_true_eq_false, if_false]
  | succ fuel ih =>
    intro xs i hlen extra
    have hshape : fuel + 1 + extra = (fuel + extra) + 1 := by omega
    rw [hshape]
    unfold heapifyAux
    by_cases hself : extreme cmp xs i = i
    · rw [if_neg (fun hne => hne hself), if_neg (fun hne => hne hself)]
    · rw [if_pos hself, if_pos hself]
      rcases extreme_cases cmp xs i with h | ⟨h1, h2⟩
      · exact absurd h hself
      · apply ih
        rw [swapAt_length]
        omega

/-- A larger call bound does not change the result of `heapify`. -/
theorem heapify_fuel {α : Type} (cmp : α → α → Bool) (xs : List α) (i : Nat) (extra : Nat) :
    heapifyAux cmp (xs.length + extra) xs i = heapify cmp xs i :=
  heapifyAux_fuel cmp xs.length xs i (by omega) extra

theorem siftUpAux_fuel {α : Type} (cmp : α → α → Bool) :
    ∀ (fuel : Nat) (xs : List α) (i : Nat), i ≤ fuel →
      ∀ extra, siftUpAux cmp (fuel + extra) xs i = siftUpAux cmp fuel xs i := by
  intro fuel
  induction fuel with
  | zero =>
    intro xs i hle extra
    cases extra with
    | zero => rfl
    | succ extra =>
      have hi : i = 0 := by omega
      subst hi
      simp [siftUpAux]
  | succ fuel ih =>
    intro xs i hle extra
    have hshape : fuel + 1 + extra = (fuel + extra) + 1 := by omega
    rw [hshape]
    unfold siftUpAux
    by_cases hgo : i ≠ 0 ∧ cmpAt cmp xs i (parent 0 i) = true
    · rw [if_pos hgo, if_pos hgo]
      apply ih
      rw [parent_zero]
      omega
    · rw [if_neg hgo, if_neg hgo]

/-- A larger swap bound does not change the result of `siftUp`. -/
theorem siftUp_fuel {α : Type} (cmp : α → α → Bool) (xs : List α) (i : Nat) (extra : Nat) :
    siftUpAux cmp (i + extra) xs i = siftUp cmp xs i :=
  siftUpAux_fuel cmp i xs i (Nat.le_refl _) extra

theorem drainAux_fuel {α : Type} :
    ∀ (fuel : Nat) (q : PriorityQueue α), q.size ≤ fuel →
      ∀ extra, PriorityQueue.drainAux (fuel + extra) q = PriorityQueue.drainAux fuel q := by
  intro fuel
  induction fuel with
  | zero =>
    intro q hle extra
    obtain ⟨seq, c⟩ := q
    have : seq = [] := List.length_eq_zero.mp (by simpa [PriorityQueue.size] using hle)
    subst this
    cases extra with
    | zero => rfl
    | succ extra => simp [PriorityQueue.drainAux, PriorityQueue.empty]
  | succ fuel ih =>
    intro q hle extra
    have hshape : fuel + 1 + extra = (fuel + extra) + 1 := by omega
    rw [hshape]
    obtain ⟨seq, c⟩ := q
    cases seq with
    | nil => simp [PriorityQueue.drainAux, PriorityQueue.empty]
    | cons t rest =>
      have hsize : (PriorityQueue.mk
          (heapify c (swapAt (t :: rest) 0 ((t :: rest).length - 1)).dropLast 0) c).size
            ≤ fuel := by
        simp only [PriorityQueue.size, heapify_length, List.length_dropLast, swapAt_length,
          List.length_cons] at hle ⊢
        omega
      have hrec := ih _ hsize extra
      simp only [List.length_cons, Nat.add_sub_cancel] at hrec
      simp [PriorityQueue.drainAux, PriorityQueue.empty, PriorityQueue.top, PriorityQueue.pop,
        hrec]

/-- A larger round bound does not change the result of `drain`. -/
theorem drain_fuel {α : Type} (q : PriorityQueue α) (extra : Nat) :
    PriorityQueue.drainAux (q.size + extra) q = q.drain :=
  drainAux_fuel q.size q (Nat.le_refl _) extra

/-! ### Comparators of the unit tests -/

theorem less_strictWeakOrder : StrictWeakOrder less := by
  refine ⟨?_, ?_, ?_⟩
  · intro a
    simp [less]
  · intro a b c
    simp only [less, decide_eq_true_eq]
    omega
  · intro a b c
    simp only [less, decide_eq_false_iff_not]
    omega

theorem greater_strictWeakOrder : StrictWeakOrder greater := by
  refine ⟨?_, ?_, ?_⟩
  · intro a
    simp [greater]
  · intro a b c
    simp only [greater, decide_eq_true_eq]
    omega
  · intro a b c
    simp only [greater, decide_eq_false_iff_not]
    omega

/-- The unit test `pq_heapify`. -/
theorem pq_heapify_test : heapify greater [5, 6, 9, 3, 2, 7] 0 = [9, 6, 7, 3, 2, 5] := by
  decide

/-- The pop order asserted by `pq_ctors` for the eight nodes `"81"`..`"88"`, each
given as its last direction code with its value under `F`; it fixes how
`heapify` resolves ties. -/
theorem pq_ctors_pop_order :
    (PriorityQueue.ofSeq
        [((1 : Nat), (4 : Nat)), (2, 4), (3, 4), (4, 4), (5, 3), (6, 4), (7, 3), (8, 2)]
        (fun l r => decide (l.2 < r.2))).drain.map Prod.fst = [8, 5, 7, 6, 1, 2, 3, 4] := by
  decide

/-- The pop order asserted by `pq_push` for the same nodes pushed one at a time;
it fixes how the sift-up of `push` resolves ties. -/
theorem pq_push_pop_order :
    (([((1 : Nat), (4 : Nat)), (2, 4), (3, 4), (4, 4), (5, 3), (6, 4), (7, 3), (8, 2)].foldl
        PriorityQueue.push
        (PriorityQueue.new (fun l r => decide (l.2 < r.2)))).drain.map Prod.fst) =
      [8, 5, 7, 6, 2, 1, 3, 4] := by
  decide

/-- C2: for a strict weak ordering `cmp`, `build_heap` returns a permutation of
its input in which no existing child (positions `2i+1`, `2i+2`) is more extreme
than its parent: `cmp(seq[c], seq[i])` is false. -/
theorem build_heap_spec {α : Type} (cmp : α → α → Bool) (h : StrictWeakOrder cmp)
    (xs : List α) :
    (build_heap cmp xs).Perm xs ∧
      ∀ i c a b, (c = 2 * i + 1 ∨ c = 2 * i + 2) →
        (build_heap cmp xs)[c]? = some a → (build_heap cmp xs)[i]? = some b → cmp a b = false :=
  ⟨build_heap_perm cmp xs, fun i => build_heap_heap h xs i⟩

theorem build_heap_spec_witness :
    build_heap greater [4, 1, 3, 2, 16, 9, 10, 14, 8, 7] = [16, 14, 10, 8, 7, 9, 3, 2, 4, 1] ∧
      (build_heap greater [4, 1, 3, 2, 16, 9, 10, 14, 8, 7]).Perm
        [4, 1, 3, 2, 16, 9, 10, 14, 8, 7] ∧
      ∀ i c a b, (c = 2 * i + 1 ∨ c = 2 * i + 2) →
        (build_heap greater [4, 1, 3, 2, 16, 9, 10, 14, 8, 7])[c]? = some a →
        (build_heap greater [4, 1, 3, 2, 16, 9, 10, 14, 8, 7])[i]? = some b →
        greater a b = false :=
  ⟨by decide,
    build_heap_spec greater greater_strictWeakOrder [4, 1, 3, 2, 16, 9, 10, 14, 8, 7]⟩

/-- C1: for a strict weak ordering `cmp`, taking `top()` and `pop()` until empty
from a queue bulk-constructed from `xs` yields a permutation of `xs` that is
sorted: a later element never satisfies `cmp(later, earlier)`. -/
theorem pop_order_sorted {α : Type} (cmp : α → α → Bool) (h : StrictWeakOrder cmp)
    (xs : List α) :
    (PriorityQueue.ofSeq xs cmp).drain.Perm xs ∧
      (PriorityQueue.ofSeq xs cmp).drain.Pairwise (fun a b => cmp b a = false) := by
  obtain ⟨h1, h2⟩ := drainAux_spec h (PriorityQueue.ofSeq xs cmp).size
    (PriorityQueue.ofSeq xs cmp) rfl (build_heap_heap h xs) (Nat.le_refl _)
  exact ⟨h1.trans (build_heap_perm cmp xs), h2⟩

theorem pop_order_sorted_witness :
    (PriorityQueue.ofSeq [4, 6, 7, 1] less).drain = [1, 4, 6, 7] ∧
      (PriorityQueue.ofSeq [4, 6, 7, 1] less).drain.Perm [4, 6, 7, 1] ∧
      (PriorityQueue.ofSeq [4, 6, 7, 1] less).drain.Pairwise
        (fun a b => less b a = false) :=
  ⟨by decide, pop_order_sorted less less_strictWeakOrder [4, 6, 7, 1]⟩

namespace lp

theorem keyLess_strictWeakOrder (h : Coordinate → Coordinate → Int) (goal : Coordinate) :
    StrictWeakOrder (keyLess h goal) := by
  refine ⟨?_, ?_, ?_⟩
  · intro a
    simp [keyLess, Key.lt]
  · intro a b c
    simp only [keyLess, Key.lt, Bool.or_eq_true, Bool.and_eq_true, decide_eq_true_eq]
    generalize Key.ofState a h goal = ka
    generalize Key.ofState b h goal = kb
    generalize Key.ofState c h goal = kc
    omega
  · intro a b c
    simp only [keyLess, Key.lt, Bool.or_eq_false_iff, Bool.and_eq_false_iff,
      decide_eq_false_iff_not]
    generalize Key.ofState a h goal = ka
    generalize Key.ofState b h goal = kb
    generalize Key.ofState c h goal = kc
    omega

theorem LpAstarCore.new_ok {roundHypot : Int → Int → Int} {deadGoal : Coordinate}
    {height width : Nat} {goal : Coordinate} {name : String} {core : LpAstarCore}
    (hc : LpAstarCore.new roundHypot deadGoal height width goal name = .ok core) :
    ∃ m f, Matrix.new height width = .ok m ∧ HeuristcFuncs roundHypot name = some f ∧
      core = { heuristics := HeuristcFuncs roundHypot, matrix := m, goal := goal, h := f,
               q := PriorityQueue.new (keyLess f deadGoal) } := by
  unfold LpAstarCore.new at hc
  split at hc
  · cases hc
  · rename_i m hm
    split at hc
    · cases hc
    · rename_i f hf
      cases hc
      exact ⟨m, f, hm, hf, rfl⟩

/-- The order that the queue of a constructed `LpAstarCore` really keeps: its
comparator is `Key(l) < Key(r)` for the registry's function of the given name
and the value `deadGoal` read through the dangling reference; after pushing a
non-empty collection of states, `top()` is a pushed state and no pushed state
has a smaller key for that value. It is the order for the given `goal` only
while the dead parameter still holds it. -/
theorem LpAstarCore_top_smallest_for_read_goal (roundHypot : Int → Int → Int)
    (deadGoal : Coordinate) (height width : Nat) (goal : Coordinate) (name : String)
    (core : LpAstarCore)
    (hc : LpAstarCore.new roundHypot deadGoal height width goal name = .ok core)
    (states : List LpState) (hne : states ≠ []) :
    ∃ f, HeuristcFuncs roundHypot name = some f ∧ core.h = f ∧ core.goal = goal ∧
      (∀ l r, core.q._compare l r =
        Key.lt (Key.ofState l f deadGoal) (Key.ofState r f deadGoal)) ∧
      ∃ t, (states.foldl PriorityQueue.push core.q).top = .ok t ∧ t ∈ states ∧
        ∀ x ∈ states, Key.lt (Key.ofState x f deadGoal) (Key.ofState t f deadGoal) = false := by
  obtain ⟨m, f, -, hf, rfl⟩ := LpAstarCore.new_ok hc
  refine ⟨f, hf, rfl, rfl, fun _ _ => rfl, ?_⟩
  dsimp only
  have hswo := keyLess_strictWeakOrder f deadGoal
  have hempty : IsHeap (keyLess f deadGoal) (PriorityQueue.new (keyLess f deadGoal))._seq := by
    intro i c a b _ hca _
    simp [PriorityQueue.new] at hca
  obtain ⟨h1, h2, h3⟩ :=
    pushAll_spec hswo states (PriorityQueue.new (keyLess f deadGoal)) rfl hempty
  have h3' : (states.foldl PriorityQueue.push (PriorityQueue.new (keyLess f deadGoal)))._seq.Perm
      states := by
    have : states.reverse ++ (PriorityQueue.new (keyLess f deadGoal))._seq = states.reverse := by
      simp [PriorityQueue.new]
    rw [this] at h3
    exact h3.trans (List.reverse_perm states)
  have hne' :
      (states.foldl PriorityQueue.push (PriorityQueue.new (keyLess f deadGoal)))._seq ≠ [] := by
    intro he
    rw [he] at h3'
    exact hne (List.Perm.eq_nil h3'.symm)
  obtain ⟨t, ht1, ht2, ht3⟩ := heap_top_exists hswo _ h1 h2 hne'
  exact ⟨t, ht1, h3'.mem_iff.mp ht2, fun x hx => ht3 x (h3'.mem_iff.mpr hx)⟩

/-- C4 (failing input): `LpAstarCore core(1, 1, {0, 0}, "manhattan")`, then
`push` of the state at `(0, 0)` with `g = 100`, `r = 0` and of the state at
`(10, 10)` with `g = 100`, `r = 5`. The comparator of `q` reads the goal
through a reference to the dead constructor parameter; when that read yields
`(10, 10)`, `top()` is the state at `(10, 10)`, although for the goal of the
aggregate, `(0, 0)`, the state at `(0, 0)` has the smaller key. -/
theorem LpAstarCore_queue_reads_dead_goal :
    ∃ core, LpAstarCore.new (fun _ _ => 0) ⟨10, 10⟩ 1 1 ⟨0, 0⟩ "manhattan" = .ok core ∧
      core.goal = ⟨0, 0⟩ ∧
      core.h ⟨0, 0⟩ ⟨0, 0⟩ = 0 ∧ core.h ⟨10, 10⟩ ⟨0, 0⟩ = 10 ∧
      (([⟨⟨0, 0⟩, 100, 0⟩, ⟨⟨10, 10⟩, 100, 5⟩] : List LpState).foldl
          PriorityQueue.push core.q).top = .ok ⟨⟨10, 10⟩, 100, 5⟩ ∧
      Key.ofState ⟨⟨0, 0⟩, 100, 0⟩ core.h core.goal = ⟨0, 0⟩ ∧
      Key.ofState ⟨⟨10, 10⟩, 100, 5⟩ core.h core.goal = ⟨15, 5⟩ ∧
      Key.lt (Key.ofState ⟨⟨0, 0⟩, 100, 0⟩ core.h core.goal)
        (Key.ofState ⟨⟨10, 10⟩, 100, 5⟩ core.h core.goal) = true :=
  ⟨_, rfl, rfl, by decide, by decide, rfl, by decide, by decide, by decide⟩

theorem HeuristcFuncs_eq_none_iff (roundHypot : Int → Int → Int) (name : String) :
    HeuristcFuncs roundHypot name = none ↔ (name ≠ "manhattan" ∧ name ≠ "euclidean") := by
  unfold HeuristcFuncs
  by_cases h1 : name = "manhattan"
  · simp [h1]
  · by_cases h2 : name = "euclidean"
    · simp [h2]
    · simp [h1, h2]

theorem Matrix.new_row_counter_wraps : Matrix.new 2147483649 1 = .error .OutOfRange :=
  Matrix.fillRows_out_of_range 2147483649 1 (by decide) (by decide) (by decide)
    2147483649 0 _ _ (by decide) (by decide) (Matrix.Filled_replicate 2147483649 1)

theorem LpAstarCore.new_of_matrix_error (roundHypot : Int → Int → Int) (deadGoal : Coordinate)
    (height width : Nat) (goal : Coordinate) (name : String) (e : Error)
    (hm : Matrix.new height width = .error e) :
    LpAstarCore.new roundHypot deadGoal height width goal name = .error e := by
  unfold LpAstarCore.new
  rw [hm]

/-- C6 (counterexample): with `2^31 + 1` rows the member `matrix{height, width}`
runs out of range, so the construction does not succeed although
`"manhattan"` is a key of the registry. -/
theorem LpAstarCore_new_fails_registered :
    (∀ roundHypot, HeuristcFuncs roundHypot "manhattan" = some manhattan) ∧
      ∀ roundHypot deadGoal,
        LpAstarCore.new roundHypot deadGoal 2147483649 1 ⟨0, 0⟩ "manhattan" =
          .error .OutOfRange :=
  ⟨fun _ => by simp [HeuristcFuncs],
    fun _ _ => LpAstarCore.new_of_matrix_error _ _ _ _ _ _ _ Matrix.new_row_counter_wraps⟩

/-- C6 (amended): for `height` and `width` up to `INT_MAX`, constructing an
`LpAstarCore` yields no aggregate exactly when the name is not a key of the
registry, that is neither `"manhattan"` nor `"euclidean"`; the failure is
`UnknownHeuristic`; on success `h` is the registry's function for the name and
`goal` is the given goal. -/
theorem LpAstarCore_new_spec (roundHypot : Int → Int → Int) (deadGoal : Coordinate)
    (height width : Nat) (goal : Coordinate) (name : String)
    (hh : (height : Int) ≤ INT_MAX) (hw : (width : Int) ≤ INT_MAX) :
    ((∀ core, LpAstarCore.new roundHypot deadGoal height width goal name ≠ .ok core) ↔
        HeuristcFuncs roundHypot name = none) ∧
      (HeuristcFuncs roundHypot name = none ↔ (name ≠ "manhattan" ∧ name ≠ "euclidean")) ∧
      (HeuristcFuncs roundHypot name = none →
        LpAstarCore.new roundHypot deadGoal height width goal name =
          .error .UnknownHeuristic) ∧
      (∀ f, HeuristcFuncs roundHypot name = some f →
        ∃ core, LpAstarCore.new roundHypot deadGoal height width goal name = .ok core ∧
          core.h = f ∧ core.goal = goal) := by
  unfold INT_MAX at hh hw
  obtain ⟨m, hm, -⟩ := Matrix.new_Filled height width (by omega) (by omega)
  have hnone : HeuristcFuncs roundHypot name = none →
      LpAstarCore.new roundHypot deadGoal height width goal name =
        .error .UnknownHeuristic := by
    intro hn
    unfold LpAstarCore.new
    rw [hm, hn]
  have hsome : ∀ f, HeuristcFuncs roundHypot name = some f →
      ∃ core, LpAstarCore.new roundHypot deadGoal height width goal name = .ok core ∧
        core.h = f ∧ core.goal = goal := by
    intro f hf
    unfold LpAstarCore.new
    rw [hm, hf]
    exact ⟨_, rfl, rfl, rfl⟩
  refine ⟨⟨?_, ?_⟩, HeuristcFuncs_eq_none_iff roundHypot name, hnone, hsome⟩
  · intro hall
    cases hf : HeuristcFuncs roundHypot name with
    | none => rfl
    | some f =>
      obtain ⟨core, hcore, -, -⟩ := hsome f hf
      exact absurd hcore (hall core)
  · intro hn core hcore
    rw [hnone hn] at hcore
    cases hcore

theorem LpAstarCore_new_spec_witness :
    ((∀ core, LpAstarCore.new (fun a b => max a b) ⟨1, 1⟩ 2 3 ⟨1, 1⟩ "euclidean" ≠ .ok core) ↔
        HeuristcFuncs (fun a b => max a b) "euclidean" = none) ∧
      (HeuristcFuncs (fun a b => max a b) "euclidean" = none ↔
        ("euclidean" ≠ "manhattan" ∧ "euclidean" ≠ "euclidean")) ∧
      (HeuristcFuncs (fun a b => max a b) "euclidean" = none →
        LpAstarCore.new (fun a b => max a b) ⟨1, 1⟩ 2 3 ⟨1, 1⟩ "euclidean" =
          .error .UnknownHeuristic) ∧
      (∀ f, HeuristcFuncs (fun a b => max a b) "euclidean" = some f →
        ∃ core, LpAstarCore.new (fun a b => max a b) ⟨1, 1⟩ 2 3 ⟨1, 1⟩ "euclidean" = .ok core ∧
          core.h = f ∧ core.goal = ⟨1, 1⟩) :=
  LpAstarCore_new_spec (fun a b => max a b) ⟨1, 1⟩ 2 3 ⟨1, 1⟩ "euclidean" (by decide) (by decide)

end lp

/-! ### Two sorted arrangements of the same elements -/

theorem sorted_count_before {α : Type} {cmp : α → α → Bool} (h : StrictWeakOrder cmp) :
    ∀ (l : List α), l.Pairwise (fun a b => cmp b a = false) → ∀ (i : Nat) (x : α),
      l[i]? = some x → l.countP (fun z => cmp z x) ≤ i := by
  intro l
  induction l with
  | nil => intro _ i x hx; simp at hx
  | cons a t ih =>
    intro hs i x hx
    rw [List.pairwise_cons] at hs
    cases i with
    | zero =>
      simp only [List.getElem?_cons_zero, Option.some.injEq] at hx
      subst hx
      have h0 : t.countP (fun z => cmp z a) = 0 := by
        rw [List.countP_eq_zero]
        intro b hb
        rw [hs.1 b hb]
        decide
      rw [List.countP_cons_of_neg _ _ (by rw [h.irrefl a]; decide), h0]
    | succ j =>
      simp only [List.getElem?_cons_succ] at hx
      have := ih hs.2 j x hx
      rw [List.countP_cons]
      split <;> omega

theorem sorted_count_upto {α : Type} {cmp : α → α → Bool} (h : StrictWeakOrder cmp) :
    ∀ (l : List α), l.Pairwise (fun a b => cmp b a = false) → ∀ (i : Nat) (y : α),
      l[i]? = some y → i + 1 ≤ l.countP (fun z => !cmp y z) := by
  intro l
  induction l with
  | nil => intro _ i y hy; simp at hy
  | cons a t ih =>
    intro hs i y hy
    rw [List.pairwise_cons] at hs
    cases i with
    | zero =>
      simp only [List.getElem?_cons_zero, Option.some.injEq] at hy
      subst hy
      rw [List.countP_cons_of_pos _ _ (by rw [h.irrefl a]; rfl)]
      omega
    | succ j =>
      simp only [List.getElem?_cons_succ] at hy
      have hmem : y ∈ t := List.getElem?_mem hy
      have := ih hs.2 j y hy
      rw [List.countP_cons_of_pos _ _ (by rw [hs.1 y hmem]; rfl)]
      omega

theorem sorted_perm_not_less {α : Type} {cmp : α → α → Bool} (h : StrictWeakOrder cmp)
    (l₁ l₂ : List α) (hp : l₁.Perm l₂)
    (s₁ : l₁.Pairwise (fun a b => cmp b a = false))
    (s₂ : l₂.Pairwise (fun a b => cmp b a = false))
    (i : Nat) (x y : α) (hx : l₁[i]? = some x) (hy : l₂[i]? = some y) : cmp y x = false := by
  cases hyx : cmp y x with
  | false => rfl
  | true =>
    have h1 := sorted_count_before h l₁ s₁ i x hx
    have h2 := sorted_count_upto h l₂ s₂ i y hy
    have h3 : l₂.countP (fun z => !cmp y z) ≤ l₂.countP (fun z => cmp z x) := by
      apply List.countP_mono_left
      intro z _ hz
      cases hzx : cmp z x with
      | true => rfl
      | false =>
        have hyz : cmp y z = false := by
          cases hv : cmp y z with
          | false => rfl
          | true => rw [hv] at hz; cases hz
        have := h.neg_trans hyz hzx
        rw [hyx] at this
        cases this
    have h4 := hp.countP_eq (fun z => cmp z x)
    omega

theorem sorted_perm_equiv {α : Type} {cmp : α → α → Bool} (h : StrictWeakOrder cmp)
    (l₁ l₂ : List α) (hp : l₁.Perm l₂)
    (s₁ : l₁.Pairwise (fun a b => cmp b a = false))
    (s₂ : l₂.Pairwise (fun a b => cmp b a = false))
    (i : Nat) (x y : α) (hx : l₁[i]? = some x) (hy : l₂[i]? = some y) :
    cmp x y = false ∧ cmp y x = false :=
  ⟨sorted_perm_not_less h l₂ l₁ hp.symm s₂ s₁ i y x hy hx,
    sorted_perm_not_less h l₁ l₂ hp s₁ s₂ i x y hx hy⟩

theorem sorted_perm_eq {α : Type} {cmp : α → α → Bool} (h : StrictWeakOrder cmp)
    (htotal : ∀ a b, cmp a b = false → cmp b a = false → a = b)
    (l₁ l₂ : List α) (hp : l₁.Perm l₂)
    (s₁ : l₁.Pairwise (fun a b => cmp b a = false))
    (s₂ : l₂.Pairwise (fun a b => cmp b a = false)) : l₁ = l₂ := by
  apply List.ext_getElem?
  intro i
  have hlen := hp.length_eq
  by_cases hi : i < l₁.length
  · have hx : l₁[i]? = some l₁[i] := List.getElem?_eq_getElem hi
    have hy : l₂[i]? = some (l₂[i]) := List.getElem?_eq_getElem (by omega)
    obtain ⟨e1, e2⟩ := sorted_perm_equiv h l₁ l₂ hp s₁ s₂ i _ _ hx hy
    rw [hx, hy, htotal _ _ e1 e2]
  · rw [List.getElem?_eq_none (by omega), List.getElem?_eq_none (by omega)]

/-! ### Index arithmetic -/

/-- C11: for a position `i` of the range `[begin, end)`, `left_child` and
`right_child` return `begin + 2 * dist + 1` and `begin + 2 * dist + 2` when that
is below `end` and `end` otherwise; `parent` of an existing child is `i`; and
`parent(begin, begin)` is `begin`. -/
theorem parent_child_roundtrip (b e i : Nat) (hb : b ≤ i) (he : i < e) :
    (left_child b e i ≠ e → parent b (left_child b e i) = i) ∧
      (right_child b e i ≠ e → parent b (right_child b e i) = i) ∧
      (left_child b e i = if b + 2 * (i - b) + 1 < e then b + 2 * (i - b) + 1 else e) ∧
      (right_child b e i = if b + 2 * (i - b) + 2 < e then b + 2 * (i - b) + 2 else e) ∧
      parent b b = b := by
  refine ⟨?_, ?_, rfl, rfl, ?_⟩
  · unfold left_child parent
    split_ifs <;> omega
  · unfold right_child parent
    split_ifs <;> omega
  · unfold parent
    rw [if_pos rfl]

theorem parent_child_roundtrip_witness :
    (left_child 3 9 4 = 6 ∧ right_child 3 9 4 = 7 ∧ left_child 3 9 6 = 9 ∧
        parent 3 4 = 3 ∧ parent 3 5 = 3) ∧
      (left_child 3 9 4 ≠ 9 → parent 3 (left_child 3 9 4) = 4) ∧
      (right_child 3 9 4 ≠ 9 → parent 3 (right_child 3 9 4) = 4) ∧
      (left_child 3 9 4 = if 3 + 2 * (4 - 3) + 1 < 9 then 3 + 2 * (4 - 3) + 1 else 9) ∧
      (right_child 3 9 4 = if 3 + 2 * (4 - 3) + 2 < 9 then 3 + 2 * (4 - 3) + 2 else 9) ∧
      parent 3 3 = 3 :=
  ⟨by decide, parent_child_roundtrip 3 9 4 (by decide) (by decide)⟩

/-! ### The unit-test nodes -/

theorem Less_strictWeakOrder : StrictWeakOrder Less := by
  refine ⟨?_, ?_, ?_⟩
  · intro a
    simp [Less]
  · intro a b c
    simp only [Less, decide_eq_true_eq]
    omega
  · intro a b c
    simp only [Less, decide_eq_false_iff_not]
    omega

/-- The pop order asserted by `pq_ctors` for the bulk-constructed queue of nodes. -/
theorem pq_ctors_paths :
    (PriorityQueue.ofSeq testNodes Less).drain.map Node.path =
      ["88", "85", "87", "86", "81", "82", "83", "84"].map String.toList := by
  decide

/-- The pop order asserted by `pq_push` for the nodes pushed one at a time. -/
theorem pq_push_paths :
    ((testNodes.foldl PriorityQueue.push (PriorityQueue.new Less)).drain.map Node.path) =
      ["88", "85", "87", "86", "82", "81", "83", "84"].map String.toList := by
  decide

/-- C15: for start `(1, 1)` and goal `(3, 3)`, the neighbours of the start in
direction-code order have `1 + manhattan` equal to `[4,4,4,4,3,4,3,2]`; the
test's nodes `"8" + i` end at the neighbours of `(2, 2)` in the same order and
have cost 2 and combined value `F` equal to `[4,4,4,4,3,4,3,2]`. -/
theorem scenario_C_fvalues :
    ((lp.Coordinate.mk 1 1).neighbours.map fun n => iadd lp.cost (lp.manhattan n ⟨3, 3⟩)) =
        [4, 4, 4, 4, 3, 4, 3, 2] ∧
      testNodes.map Node.coordinate = (lp.Coordinate.mk 2 2).neighbours ∧
      testNodes.map F.cost = [2, 2, 2, 2, 2, 2, 2, 2] ∧
      ((lp.Coordinate.mk 2 2).neighbours.map fun n => iadd 2 (lp.manhattan n ⟨3, 3⟩)) =
        [4, 4, 4, 4, 3, 4, 3, 2] ∧
      testNodes.map F = [4, 4, 4, 4, 3, 4, 3, 2] := by
  decide

/-! ### Pushing one at a time against bulk construction -/

theorem pushed_drain_spec {α : Type} {cmp : α → α → Bool} (h : StrictWeakOrder cmp)
    (xs : List α) :
    (xs.foldl PriorityQueue.push (PriorityQueue.new cmp)).drain.Perm xs ∧
      (xs.foldl PriorityQueue.push (PriorityQueue.new cmp)).drain.Pairwise
        (fun a b => cmp b a = false) := by
  have hempty : IsHeap cmp (PriorityQueue.new cmp)._seq := by
    intro i c a b _ hca _
    simp [PriorityQueue.new] at hca
  obtain ⟨h1, h2, h3⟩ := pushAll_spec h xs (PriorityQueue.new cmp) rfl hempty
  obtain ⟨h4, h5⟩ := drainAux_spec h _ _ h1 h2 (Nat.le_refl _)
  refine ⟨?_, h5⟩
  have h6 : (xs.reverse ++ (PriorityQueue.new cmp)._seq).Perm xs := by
    have : xs.reverse ++ (PriorityQueue.new cmp)._seq = xs.reverse := by
      simp [PriorityQueue.new]
    rw [this]
    exact List.reverse_perm xs
  exact (h4.trans h3).trans h6

theorem bulk_drain_spec {α : Type} {cmp : α → α → Bool} (h : StrictWeakOrder cmp)
    (xs : List α) :
    (PriorityQueue.ofSeq xs cmp).drain.Perm xs ∧
      (PriorityQueue.ofSeq xs cmp).drain.Pairwise (fun a b => cmp b a = false) := by
  obtain ⟨h1, h2⟩ := drainAux_spec h (PriorityQueue.ofSeq xs cmp).size
    (PriorityQueue.ofSeq xs cmp) rfl (build_heap_heap h xs) (Nat.le_refl _)
  exact ⟨h1.trans (build_heap_perm cmp xs), h2⟩

/-- C12 (counterexample): for the eight nodes of the unit tests under `Less`, a
strict weak ordering, pushing one at a time pops `"82"` before `"81"` while
bulk construction pops `"81"` before `"82"`. -/
theorem push_and_bulk_pop_orders_differ :
    StrictWeakOrder Less ∧
      (testNodes.foldl PriorityQueue.push (PriorityQueue.new Less)).drain ≠
        (PriorityQueue.ofSeq testNodes Less).drain :=
  ⟨Less_strictWeakOrder, by decide⟩

/-- C12 (amended): for a strict weak ordering, the pop sequence of a queue filled
by pushes and the pop sequence of the bulk-constructed queue are permutations
of each other, both sorted, and at every position their elements are
equivalent (neither is `cmp`-before the other); they are the same sequence
when `cmp` leaves no two distinct elements incomparable. -/
theorem push_and_bulk_pop_orders_equivalent {α : Type} (cmp : α → α → Bool)
    (h : StrictWeakOrder cmp) (xs : List α) :
    (xs.foldl PriorityQueue.push (PriorityQueue.new cmp)).drain.Perm
        (PriorityQueue.ofSeq xs cmp).drain ∧
      (xs.foldl PriorityQueue.push (PriorityQueue.new cmp)).drain.Pairwise
        (fun a b => cmp b a = false) ∧
      (PriorityQueue.ofSeq xs cmp).drain.Pairwise (fun a b => cmp b a = false) ∧
      (∀ (i : Nat) (x y : α), (xs.foldl PriorityQueue.push (PriorityQueue.new cmp)).drain[i]? = some x →
        (PriorityQueue.ofSeq xs cmp).drain[i]? = some y → cmp x y = false ∧ cmp y x = false) ∧
      ((∀ a b, cmp a b = false → cmp b a = false → a = b) →
        (xs.foldl PriorityQueue.push (PriorityQueue.new cmp)).drain =
          (PriorityQueue.ofSeq xs cmp).drain) := by
  obtain ⟨p1, p2⟩ := pushed_drain_spec h xs
  obtain ⟨b1, b2⟩ := bulk_drain_spec h xs
  have hp := p1.trans b1.symm
  exact ⟨hp, p2, b2, fun i x y hx hy => sorted_perm_equiv h _ _ hp p2 b2 i x y hx hy,
    fun htotal => sorted_perm_eq h htotal _ _ hp p2 b2⟩

theorem push_and_bulk_pop_orders_equivalent_witness :
    (([4, 6, 7, 1] : List Int).foldl PriorityQueue.push (PriorityQueue.new less)).drain.Perm
        (PriorityQueue.ofSeq [4, 6, 7, 1] less).drain ∧
      (([4, 6, 7, 1] : List Int).foldl PriorityQueue.push (PriorityQueue.new less)).drain.Pairwise
        (fun a b => less b a = false) ∧
      (PriorityQueue.ofSeq [4, 6, 7, 1] less).drain.Pairwise (fun a b => less b a = false) ∧
      (∀ (i : Nat) (x y : Int),
        (([4, 6, 7, 1] : List Int).foldl PriorityQueue.push (PriorityQueue.new less)).drain[i]?
          = some x →
        (PriorityQueue.ofSeq [4, 6, 7, 1] less).drain[i]? = some y →
        less x y = false ∧ less y x = false) ∧
      ((∀ a b, less a b = false → less b a = false → a = b) →
        (([4, 6, 7, 1] : List Int).foldl PriorityQueue.push (PriorityQueue.new less)).drain =
          (PriorityQueue.ofSeq [4, 6, 7, 1] less).drain) :=
  push_and_bulk_pop_orders_equivalent less less_strictWeakOrder [4, 6, 7, 1]

/-! ### The top of a queue -/

theorem PriorityQueue.Built.heap {α : Type} {cmp : α → α → Bool} (h : StrictWeakOrder cmp)
    {q : PriorityQueue α} (hb : PriorityQueue.Built cmp q) :
    q._compare = cmp ∧ IsHeap cmp q._seq := by
  induction hb with
  | new =>
    refine ⟨rfl, ?_⟩
    intro i c a b _ hca _
    simp [PriorityQueue.new] at hca
  | ofSeq xs => exact ⟨rfl, build_heap_heap h xs⟩
  | push q a _ ih =>
    obtain ⟨seq, c⟩ := q
    obtain ⟨hc, hh⟩ := ih
    dsimp only at hc hh
    subst hc
    exact ⟨rfl, push_seq_heap h seq a hh⟩
  | pop q q' _ hpop ih =>
    obtain ⟨seq, c⟩ := q
    obtain ⟨hc, hh⟩ := ih
    dsimp only at hc hh
    subst hc
    unfold PriorityQueue.pop at hpop
    dsimp only at hpop
    split at hpop
    · cases hpop
    · rename_i hlen
      cases hpop
      exact ⟨rfl, pop_seq_heap h seq (by omega) hh⟩

/-- C13 (counterexample): the queue bulk-constructed from `{4, 6, 7, 1}` with
`less` has top `1`, as `pq_ctors` asserts, although `4` is resident and
`less(1, 4)` holds. -/
theorem top_is_not_cmp_maximum :
    StrictWeakOrder less ∧
      PriorityQueue.Built less (PriorityQueue.ofSeq [4, 6, 7, 1] less) ∧
      (PriorityQueue.ofSeq [4, 6, 7, 1] less).top = .ok 1 ∧
      (4 : Int) ∈ (PriorityQueue.ofSeq [4, 6, 7, 1] less)._seq ∧
      less 1 4 = true :=
  ⟨less_strictWeakOrder, PriorityQueue.Built.ofSeq _, rfl, by decide, by decide⟩

/-- C13 (amended): for a strict weak ordering `cmp`, where `cmp(a, b)` means that
`a` comes out before `b`, the top of every non-empty queue built by bulk
construction, pushes and pops is a resident element that no resident element
precedes: there is no resident `x` with `cmp(x, top())` true. -/
theorem top_is_cmp_first {α : Type} (cmp : α → α → Bool) (h : StrictWeakOrder cmp)
    (q : PriorityQueue α) (hb : PriorityQueue.Built cmp q) (hne : q.empty = false) :
    ∃ t, q.top = .ok t ∧ t ∈ q._seq ∧ ∀ x ∈ q._seq, cmp x t = false := by
  obtain ⟨hc, hh⟩ := hb.heap h
  apply heap_top_exists h q hc hh
  intro he
  rw [PriorityQueue.empty, he] at hne
  cases hne

theorem top_is_cmp_first_witness :
    ∃ t, ((PriorityQueue.ofSeq [4, 6, 7, 1] less).push 0).top = .ok t ∧
      t ∈ ((PriorityQueue.ofSeq [4, 6, 7, 1] less).push 0)._seq ∧
      ∀ x ∈ ((PriorityQueue.ofSeq [4, 6, 7, 1] less).push 0)._seq, less x t = false :=
  top_is_cmp_first less less_strictWeakOrder _
    (PriorityQueue.Built.push _ 0 (PriorityQueue.Built.ofSeq [4, 6, 7, 1])) (by decide)

namespace lp

/-! ### The composite key against the textbook priority -/

/-- C16 (counterexample): for `g = 1`, `r = 5` and heuristic value `2` the key has
`first = min(1, 5 + 2) = 1`, while `min(g, r) + h` is `3`. -/
theorem Key_first_not_textbook :
    manhattan ⟨0, 0⟩ ⟨2, 0⟩ = 2 ∧
      (Key.ofState ⟨⟨0, 0⟩, 1, 5⟩ manhattan ⟨2, 0⟩).first = 1 ∧
      min (1 : Int) 5 + manhattan ⟨0, 0⟩ ⟨2, 0⟩ = 3 ∧
      (Key.ofState ⟨⟨0, 0⟩, 1, 5⟩ manhattan ⟨2, 0⟩).first ≠
        min (1 : Int) 5 + manhattan ⟨0, 0⟩ ⟨2, 0⟩ := by
  decide

/-- C16 (amended): for a non-negative heuristic value and no `int` overflow,
`Key.first` is `min(g, r + h)` and `Key.second` is `min(g, r)`; `first` never
exceeds the textbook value `min(g, r) + h` and equals it exactly when `h` is
zero or `r + h ≤ g`. -/
theorem Key_first_vs_textbook (s : LpState) (h : Coordinate → Coordinate → Int)
    (goal : Coordinate) (hnn : 0 ≤ h s.coordinate goal)
    (hno : InInt (s.r + h s.coordinate goal)) :
    (Key.ofState s h goal).first = min s.g (s.r + h s.coordinate goal) ∧
      (Key.ofState s h goal).second = min s.g s.r ∧
      (Key.ofState s h goal).first ≤ min s.g s.r + h s.coordinate goal ∧
      ((Key.ofState s h goal).first = min s.g s.r + h s.coordinate goal ↔
        (h s.coordinate goal = 0 ∨ s.r + h s.coordinate goal ≤ s.g)) := by
  have e : (Key.ofState s h goal).first = min s.g (s.r + h s.coordinate goal) := by
    simp [Key.ofState, iadd, wrapInt_of_InInt hno]
  rw [e]
  refine ⟨rfl, rfl, ?_, ?_⟩ <;> omega

theorem Key_first_vs_textbook_witness :
    (Key.ofState ⟨⟨0, 0⟩, 9, 5⟩ manhattan ⟨2, 0⟩).first = min 9 (5 + manhattan ⟨0, 0⟩ ⟨2, 0⟩) ∧
      (Key.ofState ⟨⟨0, 0⟩, 9, 5⟩ manhattan ⟨2, 0⟩).second = min 9 5 ∧
      (Key.ofState ⟨⟨0, 0⟩, 9, 5⟩ manhattan ⟨2, 0⟩).first ≤
        min 9 5 + manhattan ⟨0, 0⟩ ⟨2, 0⟩ ∧
      ((Key.ofState ⟨⟨0, 0⟩, 9, 5⟩ manhattan ⟨2, 0⟩).first =
          min 9 5 + manhattan ⟨0, 0⟩ ⟨2, 0⟩ ↔
        (manhattan ⟨0, 0⟩ ⟨2, 0⟩ = 0 ∨ 5 + manhattan ⟨0, 0⟩ ⟨2, 0⟩ ≤ 9)) :=
  Key_first_vs_textbook ⟨⟨0, 0⟩, 9, 5⟩ manhattan ⟨2, 0⟩ (by decide) (by decide)

/-! ### The composite key at the `infinity()` sentinel -/

/-- Without overflow in `r + h` the key is monotone in `g`, `r` and `h`. -/
theorem Key_monotone_of_no_overflow (s t : LpState) (h : Coordinate → Coordinate → Int)
    (goal : Coordinate) (hs : InInt (s.r + h s.coordinate goal))
    (ht : InInt (t.r + h t.coordinate goal))
    (hg : s.g ≤ t.g) (hr : s.r ≤ t.r) (hh : h s.coordinate goal ≤ h t.coordinate goal) :
    Key.lt (Key.ofState t h goal) (Key.ofState s h goal) = false := by
  simp only [Key.lt, Key.ofState, iadd, wrapInt_of_InInt hs, wrapInt_of_InInt ht,
    Bool.or_eq_false_iff, Bool.and_eq_false_iff, decide_eq_false_iff_not]
  omega

/-- C17 (failing input): with `g = r = infinity()` and heuristic value `1` the sum
`r + h` overflows and wraps to `INT_MIN`, so the key of the unreached state is
smaller than the key of a state with `g = r = 0`. The first part uses the
registered `"manhattan"`, the second a heuristic that is `1` everywhere. -/
theorem Key_infinity_overflow :
    ((0 : Int) ≤ infinity ∧
      0 ≤ manhattan ⟨0, 0⟩ ⟨0, 0⟩ ∧ manhattan ⟨0, 0⟩ ⟨0, 0⟩ ≤ manhattan ⟨1, 0⟩ ⟨0, 0⟩ ∧
      (Key.ofState ⟨⟨1, 0⟩, infinity, infinity⟩ manhattan ⟨0, 0⟩).first = INT_MIN ∧
      Key.lt (Key.ofState ⟨⟨1, 0⟩, infinity, infinity⟩ manhattan ⟨0, 0⟩)
        (Key.ofState ⟨⟨0, 0⟩, 0, 0⟩ manhattan ⟨0, 0⟩) = true) ∧
      ((∀ c g : Coordinate, (0 : Int) ≤ (fun _ _ => 1) c g) ∧
        Key.lt (Key.ofState ⟨⟨1, 0⟩, infinity, infinity⟩ (fun _ _ => 1) ⟨0, 0⟩)
          (Key.ofState ⟨⟨0, 0⟩, 0, 0⟩ (fun _ _ => 1) ⟨0, 0⟩) = true) := by
  refine ⟨by decide, ?_, by decide⟩
  intro c g
  show (0 : Int) ≤ 1
  decide

end lp

end search
